import Mathlib

/-!
Shallow embedding of the PulseDelta backend core (chain event indexer,
resolution scheduler, resolution-data provider adapter) together with
theorems settling the specification claims.

Sources embedded:
- src/services/external-api/sports.js   (rate limiter, outcome extraction,
  outcome-to-index mapping, game-outcome lookup, market resolution)
- src/services/oracle/resolver.js       (scheduler: resolveMarketIfReady,
  callResolveMarket, checkAndResolveMarkets)
- src/services/blockchain/indexer.js    (event handling, batch backfill,
  poll cursor)
- src/database/migrations/004_create_market_events.js (unique event key)

The database model layer (src/database/models) is not part of the given
sources; its operations are modelled from the specification and carry a
doc comment saying so.
-/

namespace Backend

/-! ### JavaScript value helpers

JavaScript field reads on absent properties give undefined, and the
logical-or operator falls through on every falsy value (undefined, null,
0, empty string, false).  Optional fields are modelled as Option values
and the fall-through is made explicit. -/

/-- Numeric a || b || 0 : first truthy (nonzero) value, else 0. -/
def jsOr2 (a b : Option Int) : Int :=
  match a with
  | some x => if x = 0 then (match b with | some y => y | none => 0) else x
  | none => match b with | some y => y | none => 0

/-- Numeric a || 0 : value if present, else 0 (a present 0 stays 0). -/
def jsNum (a : Option Int) : Int :=
  match a with
  | some x => x
  | none => 0

/-- String a || dflt : value if present and nonempty, else the default. -/
def jsStr (a : Option String) (dflt : String) : String :=
  match a with
  | some s => if s = "" then dflt else s
  | none => dflt

/-! ### Rate limiter (sports.js, checkRateLimit)

State carried by the SportsDataService singleton: requestCount and
requestWindowStart (milliseconds).  checkRateLimit first resets the
window if more than windowMs has elapsed, then fails with the
distinguished message if the budget is exhausted, else increments the
counter.  The mutation performed by the window reset survives the throw,
so the model returns the updated state on both branches. -/

structure RL where
  requestCount : Nat
  requestWindowStart : Nat
  deriving Repr, DecidableEq

/-- Fixed window size: 15 minutes in milliseconds. -/
def windowMs : Nat := 15 * 60 * 1000

/-- Model of SportsDataService.checkRateLimit.  rateLimit is
config.externalApi.rateLimit; now is Date.now() in milliseconds. -/
def checkRateLimit (rateLimit now : Nat) (s : RL) : Except String Unit × RL :=
  let s := if now - s.requestWindowStart > windowMs then
    { requestCount := 0, requestWindowStart := now } else s
  if s.requestCount ≥ rateLimit then
    (Except.error "Rate limit exceeded. Please try again later.", s)
  else
    (Except.ok (), { s with requestCount := s.requestCount + 1 })

/-- Runs a sequence of rate-limit checks at the given times, returning
the per-request success flags and the final limiter state. -/
def runRequests (rateLimit : Nat) (nows : List Nat) (s : RL) : List Bool × RL :=
  match nows with
  | [] => ([], s)
  | t :: rest =>
    match checkRateLimit rateLimit t s with
    | (Except.ok _, s1) =>
      let r := runRequests rateLimit rest s1
      (true :: r.1, r.2)
    | (Except.error _, s1) =>
      let r := runRequests rateLimit rest s1
      (false :: r.1, r.2)

/-! ### Outcome extraction (sports.js, extractGameOutcome) -/

inductive Winner where
  | home
  | away
  | draw
  deriving Repr, DecidableEq

inductive OutcomeStatus where
  | pending
  | finished
  deriving Repr, DecidableEq

structure Outcome where
  status : OutcomeStatus
  homeScore : Int
  awayScore : Int
  winner : Option Winner
  deriving Repr, DecidableEq

/-- Provider-native payload fields read by extractGameOutcome.  The
source first unwraps a one-element array response; the embedding takes
the already-unwrapped record. -/
structure GameData where
  homeTeamScore : Option Int
  homeScore : Option Int
  awayTeamScore : Option Int
  awayScore : Option Int
  isClosed : Bool
  status : Option String
  gameStatus : Option String
  deriving Repr, DecidableEq

/-- Model of SportsDataService.extractGameOutcome. -/
def extractGameOutcome (data : GameData) : Outcome :=
  let homeScore := jsOr2 data.homeTeamScore data.homeScore
  let awayScore := jsOr2 data.awayTeamScore data.awayScore
  let isFinished := data.isClosed || data.status = some "Final"
    || data.gameStatus = some "Final"
  if !isFinished then
    { status := OutcomeStatus.pending, homeScore := homeScore,
      awayScore := awayScore, winner := none }
  else
    let winner := if homeScore > awayScore then Winner.home
      else if awayScore > homeScore then Winner.away
      else Winner.draw
    { status := OutcomeStatus.finished, homeScore := homeScore,
      awayScore := awayScore, winner := some winner }

/-! ### Outcome-to-index mapping (sports.js, resolveMarket body) -/

/-- Resolution routing parameters carried in market metadata. -/
structure Metadata where
  gameId : Option String
  sport : Option String
  outcomeType : Option String
  spread : Option Int
  threshold : Option Int
  deriving Repr, DecidableEq

/-- Outcome-to-index mapping from the body of
SportsDataService.resolveMarket: a chain of strict equality tests on
outcomeType.  winner maps home/away/anything-else to 0/1/2; spread
compares homeScore minus awayScore against metadata.spread with
meets-or-exceeds; over_under compares the summed score strictly against
metadata.threshold; any other mode leaves the winning outcome null. -/
def mapOutcome (outcomeType : Option String) (metadata : Option Metadata)
    (o : Outcome) : Option Int :=
  match outcomeType with
  | some "winner" =>
    some (match o.winner with
      | some Winner.home => 0
      | some Winner.away => 1
      | _ => 2)
  | some "spread" =>
    let spread := jsNum (metadata.bind Metadata.spread)
    some (if o.homeScore - o.awayScore ≥ spread then 0 else 1)
  | some "over_under" =>
    let threshold := jsNum (metadata.bind Metadata.threshold)
    some (if o.homeScore + o.awayScore > threshold then 0 else 1)
  | _ => none

/-! ### Projection store

The entity tables written by the indexer and the scheduler.  The model
layer itself (src/database/models) is not in the given sources, so each
operation is modelled from the specification, which describes the store
contract in sections 3 and 6. -/

inductive MStatus where
  | active
  | resolved
  deriving Repr, DecidableEq

/-- One row of market_events (migration 004): unique on
(transaction_hash, log_index). -/
structure EventRecord where
  marketId : String
  eventType : String
  userAddress : Option String
  outcomeId : Option Int
  shares : Option Int
  cost : Option Int
  blockNumber : Nat
  transactionHash : String
  logIndex : Nat
  deriving Repr, DecidableEq

structure UserStats where
  totalTrades : Nat
  totalVolume : Int
  deriving Repr, DecidableEq

structure MarketRow where
  id : String
  status : MStatus
  volume : Int
  liquidity : Int
  deriving Repr, DecidableEq

/-- One market_history row: per-outcome prices plus volume and liquidity. -/
structure Snapshot where
  marketId : String
  prices : List Int
  volume : Int
  liquidity : Int
  deriving Repr, DecidableEq

structure Store where
  events : List EventRecord
  markets : List MarketRow
  userStats : List (String × UserStats)
  snapshots : List Snapshot
  deriving Repr, DecidableEq

def emptyStore : Store := ⟨[], [], [], []⟩

/-- The idempotency key of an event record or a log. -/
def recordKey (e : EventRecord) : String × Nat := (e.transactionHash, e.logIndex)

/-- Whether a record with the given (transaction hash, log index) key is
already stored. -/
def hasKey (s : Store) (k : String × Nat) : Bool :=
  s.events.any (fun e => e.transactionHash == k.1 && e.logIndex == k.2)

/-- Modelled from the spec: MarketEvent.create (src/database/models is
not in the sources) is the appendEvent operation of section 6, which
fails silently / no-ops on a duplicate (transaction hash, log index)
key; the unique constraint is in migration 004. -/
def appendEvent (s : Store) (e : EventRecord) : Store :=
  if hasKey s (recordKey e) then s
  else { s with events := s.events ++ [e] }

/-- Modelled from the spec: Market.upsert is the upsertEntity operation
of section 6.  Section 3 fixes status transitions to active→resolved
only, so upserting an existing entity leaves its row unchanged; a new
entity is inserted as active with zero totals. -/
def marketUpsert (s : Store) (id : String) : Store :=
  if s.markets.any (fun m => m.id == id) then s
  else { s with markets := s.markets ++ [⟨id, MStatus.active, 0, 0⟩] }

/-- Modelled from the spec: Market.updateStatus is the setEntityStatus
operation of section 6; it updates the status of the row with the given
id and touches nothing else. -/
def marketUpdateStatus (s : Store) (id : String) (st : MStatus) : Store :=
  { s with markets := s.markets.map (fun m =>
      if m.id == id then { m with status := st } else m) }

/-- Modelled from the spec: Market.updateVolume is the
updateEntityTotals operation of section 6; section 3 says totals are
replaced, not incremented. -/
def marketUpdateVolume (s : Store) (id : String) (v l : Int) : Store :=
  { s with markets := s.markets.map (fun m =>
      if m.id == id then { m with volume := v, liquidity := l } else m) }

/-- Modelled from the spec: User.upsert (models directory not in the
sources) creates the user row when absent and leaves existing stats
untouched, as an insert-on-conflict-do-nothing upsert. -/
def userUpsert (s : Store) (addr : String) : Store :=
  if s.userStats.any (fun u => u.1 == addr) then s
  else { s with userStats := s.userStats ++ [(addr, ⟨0, 0⟩)] }

/-- Modelled from the spec: User.updateStats (models directory not in
the sources) is called by the indexer with per-event deltas
(totalTrades: 1, totalVolume: cost), so it is modelled as adding the
deltas to the stored totals. -/
def userUpdateStats (s : Store) (addr : String) (dTrades : Nat) (dVol : Int) : Store :=
  { s with userStats := s.userStats.map (fun u =>
      if u.1 == addr then (u.1, ⟨u.2.totalTrades + dTrades, u.2.totalVolume + dVol⟩) else u) }

/-- Modelled from the spec: MarketHistory.create is the appendSnapshot
operation of section 6, appending one time-series row. -/
def snapshotCreate (s : Store) (snap : Snapshot) : Store :=
  { s with snapshots := s.snapshots ++ [snap] }

/-- Status of a market row in the store, if present. -/
def statusOf (s : Store) (id : String) : Option MStatus :=
  (s.markets.find? (fun m => m.id == id)).map MarketRow.status

/-- Stats of a user row in the store, if present. -/
def statsOf (s : Store) (addr : String) : Option UserStats :=
  (s.userStats.find? (fun u => u.1 == addr)).map Prod.snd

/-! ### Adapter lookup path (sports.js, makeRequest / getGameOutcome /
resolveMarket) -/

/-- External collaborators of the adapter: the configured rate limit,
the non-expired external_data cache rows keyed by game id, and the HTTP
provider returning a payload or an already-normalized error message. -/
structure ApiEnv where
  rateLimit : Nat
  cache : String → Option Outcome
  api : String → Except String GameData

/-- Lower-casing as used by sport.toLowerCase(): per-character lower
casing over the string contents. -/
def strToLower (s : String) : String := String.mk (s.data.map Char.toLower)

/-- Model of SportsDataService.makeRequest: a rate-limit check followed
by the HTTP call; both failure kinds propagate as thrown errors. -/
def makeRequest (env : ApiEnv) (nowMs : Nat) (rl : RL) (endpoint : String) :
    Except String GameData × RL :=
  match checkRateLimit env.rateLimit nowMs rl with
  | (Except.error e, rl1) => (Except.error e, rl1)
  | (Except.ok _, rl1) => (env.api endpoint, rl1)

/-- Model of SportsDataService.getGameOutcome: cache-aside lookup, then
a switch on sport.toLowerCase() choosing the endpoint, extraction, and
for any other sport a thrown Unsupported-sport error.  The best-effort
cacheData write after a successful fetch does not affect the returned
value and is not modelled. -/
def getGameOutcome (env : ApiEnv) (nowMs : Nat) (rl : RL)
    (gameId sport : String) : Except String Outcome × RL :=
  match env.cache gameId with
  | some cached => (Except.ok cached, rl)
  | none =>
    let sp := strToLower sport
    if sp = "nfl" then
      match makeRequest env nowMs rl ("/nfl/scores/json/Scores/" ++ gameId) with
      | (Except.error e, rl1) => (Except.error e, rl1)
      | (Except.ok data, rl1) => (Except.ok (extractGameOutcome data), rl1)
    else if sp = "nba" then
      match makeRequest env nowMs rl ("/nba/scores/json/Game/" ++ gameId) with
      | (Except.error e, rl1) => (Except.error e, rl1)
      | (Except.ok data, rl1) => (Except.ok (extractGameOutcome data), rl1)
    else if sp = "mlb" then
      match makeRequest env nowMs rl ("/mlb/scores/json/Game/" ++ gameId) with
      | (Except.error e, rl1) => (Except.error e, rl1)
      | (Except.ok data, rl1) => (Except.ok (extractGameOutcome data), rl1)
    else
      (Except.error ("Unsupported sport: " ++ sport), rl)

/-- Return value of SportsDataService.resolveMarket. -/
structure Resolution where
  resolved : Bool
  winningOutcome : Option Int
  reason : Option String
  deriving Repr, DecidableEq

/-- Model of SportsDataService.resolveMarket: reads gameId, sport and
outcomeType from the market metadata, requires a truthy gameId, fetches
the game outcome (defaulting the sport to nfl), reports not-resolved for
an unfinished game, and otherwise maps the outcome through mapOutcome. -/
def resolveMarket (env : ApiEnv) (nowMs : Nat) (rl : RL)
    (metadata : Option Metadata) : Except String Resolution × RL :=
  let gameId := jsStr (metadata.bind Metadata.gameId) ""
  if gameId = "" then
    (Except.error "Game ID not found in market metadata", rl)
  else
    let sport := jsStr (metadata.bind Metadata.sport) "nfl"
    match getGameOutcome env nowMs rl gameId sport with
    | (Except.error e, rl1) => (Except.error e, rl1)
    | (Except.ok o, rl1) =>
      if o.status ≠ OutcomeStatus.finished then
        (Except.ok ⟨false, none, some "Game not finished yet"⟩, rl1)
      else
        (Except.ok ⟨true, mapOutcome (metadata.bind Metadata.outcomeType) metadata o, none⟩, rl1)

/-! ### Resolution scheduler (resolver.js) -/

structure Receipt where
  transactionHash : String
  deriving Repr, DecidableEq

/-- Boolean list prefix test, used for the substring check below. -/
def listPrefixB : List Char → List Char → Bool
  | [], _ => true
  | _ :: _, [] => false
  | c :: cs, d :: ds => c == d && listPrefixB cs ds

/-- Boolean list infix test. -/
def listInfixB (pat : List Char) : List Char → Bool
  | [] => listPrefixB pat []
  | c :: rest => listPrefixB pat (c :: rest) || listInfixB pat rest

/-- JavaScript String.prototype.includes: pat occurs contiguously in s. -/
def containsSub (s pat : String) : Bool :=
  listInfixB pat.toList s.toList

/-- Observable outcome of one resolveMarketIfReady run for one entity. -/
inductive SchedOutcome where
  | skippedAlreadyResolved
  | skippedNotDue
  | notReady (reason : String)
  | resolvedOk (winningOutcome : Option Int)
  | failed (msg : String)
  deriving Repr, DecidableEq

/-- A market row as returned by the candidate query
(Market.findMarketsApproachingResolution); it may be stale by the time
the entity is processed. -/
structure SchedMarket where
  id : String
  status : MStatus
  resolutionTime : Int
  metadata : Option Metadata
  deriving Repr, DecidableEq

/-- Model of OracleResolver.callResolveMarket: the settlement
transaction result is an input (writeContract is the external RPC
collaborator).  A failure whose message contains already-resolved or
MarketResolved is absorbed and reported as success with no receipt;
every other failure is rethrown. -/
def callResolveMarket (txResult : Except String Receipt) :
    Except String (Option Receipt) :=
  match txResult with
  | Except.ok receipt => Except.ok (some receipt)
  | Except.error msg =>
    if containsSub msg "already resolved" || containsSub msg "MarketResolved" then
      Except.ok none
    else
      Except.error msg

/-- Model of OracleResolver.resolveMarketIfReady: skip if the queried
row is already resolved, skip if the resolution time has not passed,
consult the adapter, skip if not resolved yet, submit the settlement
transaction through callResolveMarket and then set the stored status to
resolved.  A thrown error becomes the failed outcome (the method
rethrows to its caller). -/
def resolveMarketIfReady (env : ApiEnv) (nowMs : Nat) (now : Int) (rl : RL)
    (market : SchedMarket) (txResult : Except String Receipt) (store : Store) :
    SchedOutcome × RL × Store :=
  if market.status = MStatus.resolved then
    (SchedOutcome.skippedAlreadyResolved, rl, store)
  else if now < market.resolutionTime then
    (SchedOutcome.skippedNotDue, rl, store)
  else
    match resolveMarket env nowMs rl market.metadata with
    | (Except.error e, rl1) => (SchedOutcome.failed e, rl1, store)
    | (Except.ok r, rl1) =>
      if !r.resolved then
        (SchedOutcome.notReady (r.reason.getD ""), rl1, store)
      else
        match callResolveMarket txResult with
        | Except.error e => (SchedOutcome.failed e, rl1, store)
        | Except.ok _ =>
          (SchedOutcome.resolvedOk r.winningOutcome, rl1,
            marketUpdateStatus store market.id MStatus.resolved)

/-- Model of OracleResolver.checkAndResolveMarkets: the candidate list
is the input (the query is the store collaborator); each entity is
processed by resolveMarketIfReady inside a per-entity catch, so a
failure is recorded and the remaining entities are still processed.
txr gives the settlement-transaction result per market id. -/
def checkAndResolveMarkets (env : ApiEnv) (nowMs : Nat) (now : Int) (rl : RL)
    (markets : List SchedMarket) (txr : String → Except String Receipt)
    (store : Store) : List SchedOutcome × RL × Store :=
  match markets with
  | [] => ([], rl, store)
  | m :: rest =>
    let r1 := resolveMarketIfReady env nowMs now rl m (txr m.id) store
    let r2 := checkAndResolveMarkets env nowMs now r1.2.1 rest txr r1.2.2
    (r1.1 :: r2.1, r2.2.1, r2.2.2)

/-! ### Chain event indexer (indexer.js) -/

/-- One on-chain log as returned by getContractLogs: address, event
name, position, and the event arguments read by the handlers (absent
arguments are none).  The block timestamp is not carried: it only feeds
the stored timestamp columns, which no claim touches. -/
structure Log where
  address : String
  eventName : String
  blockNumber : Nat
  transactionHash : String
  logIndex : Nat
  argsMarket : Option String
  argsMarketAddress : Option String
  argsCreator : Option String
  argsCreatorAddress : Option String
  argsUser : Option String
  argsBuyer : Option String
  argsSeller : Option String
  argsProvider : Option String
  argsOutcome : Option Int
  argsShares : Option Int
  argsCost : Option Int
  argsAmount : Option Int
  argsWinningOutcome : Option Int
  deriving Repr, DecidableEq

/-- Truthiness-normalized optional string: an empty string is falsy. -/
def jsStrOpt (a : Option String) : Option String :=
  match a with
  | some s => if s = "" then none else some s
  | none => none

/-- The idempotency key of a log. -/
def keyOf (l : Log) : String × Nat := (l.transactionHash, l.logIndex)

/-- args.market || args.marketAddress (empty when both are absent). -/
def marketIdOf (l : Log) : String :=
  jsStr l.argsMarket (jsStr l.argsMarketAddress "")

/-- args.creator || args.creatorAddress. -/
def creatorOf (l : Log) : Option String :=
  (jsStrOpt l.argsCreator).or (jsStrOpt l.argsCreatorAddress)

/-- args.user || args.buyer || args.seller || args.provider. -/
def userAddressOf (l : Log) : Option String :=
  ((jsStrOpt l.argsUser).or (jsStrOpt l.argsBuyer)).or
    ((jsStrOpt l.argsSeller).or (jsStrOpt l.argsProvider))

/-- args.shares?.toString() || defaulted to 0 when absent. -/
def sharesOf (l : Log) : Int := jsNum l.argsShares

/-- args.cost?.toString() || args.amount?.toString() || defaulted to 0;
a present cost of 0 stringifies to a truthy "0" and does not fall
through to amount. -/
def costOf (l : Log) : Int :=
  match l.argsCost with
  | some v => v
  | none => jsNum l.argsAmount

/-- The generic event record handleMarketEvent stores for a log. -/
def genericRecordOf (en : String) (l : Log) : EventRecord :=
  { marketId := l.address, eventType := en, userAddress := userAddressOf l,
    outcomeId := l.argsOutcome, shares := some (sharesOf l),
    cost := some (costOf l), blockNumber := l.blockNumber,
    transactionHash := l.transactionHash, logIndex := l.logIndex }

/-- The second record handleMarketEvent stores for a MarketResolved log,
carrying the winning outcome; it has the same key as the generic record. -/
def resolvedRecordOf (l : Log) : EventRecord :=
  { marketId := l.address, eventType := "MarketResolved", userAddress := none,
    outcomeId := l.argsWinningOutcome, shares := none, cost := none,
    blockNumber := l.blockNumber, transactionHash := l.transactionHash,
    logIndex := l.logIndex }

/-- On-chain read collaborators used by updateMarketSnapshot
(getPrice per outcome with per-outcome failure degrading to 0,
totalVolume, totalLiquidity). -/
structure ChainReads where
  prices : String → List Int
  volume : String → Int
  liquidity : String → Int

/-- Indexer state: the watch-set of market contract addresses
(this.marketContracts) plus the projection store. -/
structure IState where
  watch : List String
  store : Store
  deriving Repr, DecidableEq

/-- Map.set(marketId, marketId): insert into the watch-set if absent. -/
def watchInsert (w : List String) (m : String) : List String :=
  if w.any (fun x => x == m) then w else w ++ [m]

/-- Model of BlockchainIndexer.handleMarketCreated: upsert the entity,
append its creation event record, and register the address in the
watch-set. -/
def handleMarketCreated (st : IState) (l : Log) : IState :=
  let marketId := marketIdOf l
  let s1 := marketUpsert st.store marketId
  let s2 := appendEvent s1
    { marketId := marketId, eventType := "MarketCreated",
      userAddress := creatorOf l, outcomeId := none, shares := none,
      cost := none, blockNumber := l.blockNumber,
      transactionHash := l.transactionHash, logIndex := l.logIndex }
  { watch := watchInsert st.watch marketId, store := s2 }

/-- The four per-market event kinds the indexer queries. -/
def kinds4 : List String :=
  ["SharesPurchased", "SharesSold", "LiquidityAdded", "MarketResolved"]

def isTradeKind (en : String) : Bool :=
  en == "SharesPurchased" || en == "SharesSold"

/-- Model of BlockchainIndexer.updateMarketSnapshot: nothing happens if
the market row is absent; otherwise a snapshot row is appended and the
entity totals are replaced with the values read from the chain. -/
def updateMarketSnapshot (reads : ChainReads) (s : Store) (marketId : String) : Store :=
  if s.markets.any (fun m => m.id == marketId) then
    let v := reads.volume marketId
    let lq := reads.liquidity marketId
    marketUpdateVolume (snapshotCreate s ⟨marketId, reads.prices marketId, v, lq⟩)
      marketId v lq
  else s

/-- Model of BlockchainIndexer.handleMarketEvent: store the event
record, upsert the user and add per-event stat deltas for trade kinds,
refresh the snapshot for trade kinds, and for MarketResolved set the
entity status to resolved and append a second record carrying the
winning outcome (same key, absorbed by the unique constraint). -/
def handleMarketEvent (reads : ChainReads) (st : IState) (eventType : String)
    (l : Log) : IState :=
  let marketId := l.address
  let userAddress := userAddressOf l
  let s1 := appendEvent st.store (genericRecordOf eventType l)
  let s2 := match userAddress with
    | some u =>
      if isTradeKind eventType then userUpdateStats (userUpsert s1 u) u 1 (costOf l)
      else userUpsert s1 u
    | none => s1
  let s3 := if isTradeKind eventType then updateMarketSnapshot reads s2 marketId else s2
  let s4 := if eventType == "MarketResolved" then
      appendEvent (marketUpdateStatus s3 marketId MStatus.resolved) (resolvedRecordOf l)
    else s3
  { st with store := s4 }

/-- The blockchain RPC log query: logs at the address with the event
name whose block lies in the inclusive range. -/
def queryLogs (chain : List Log) (addr eventName : String) (fromB toB : Nat) :
    List Log :=
  chain.filter (fun l => l.address == addr && l.eventName == eventName
    && decide (fromB ≤ l.blockNumber) && decide (l.blockNumber ≤ toB))

/-- External collaborators of the indexer: the chain logs, the
configured factory address, and the snapshot read functions. -/
structure IndexEnv where
  chain : List Log
  factory : String
  reads : ChainReads

/-- Model of BlockchainIndexer.indexMarketCreatedEvents. -/
def indexMarketCreatedEvents (env : IndexEnv) (st : IState) (fromB toB : Nat) :
    IState :=
  (queryLogs env.chain env.factory "MarketCreated" fromB toB).foldl
    handleMarketCreated st

/-- Model of BlockchainIndexer.indexEventType. -/
def indexEventType (env : IndexEnv) (st : IState) (marketAddress eventName : String)
    (fromB toB : Nat) : IState :=
  (queryLogs env.chain marketAddress eventName fromB toB).foldl
    (fun s l => handleMarketEvent env.reads s eventName l) st

/-- Model of BlockchainIndexer.indexMarketEvents: the four kinds in
order. -/
def indexMarketEvents (env : IndexEnv) (st : IState) (marketAddress : String)
    (fromB toB : Nat) : IState :=
  kinds4.foldl (fun s en => indexEventType env s marketAddress en fromB toB) st

/-- Model of BlockchainIndexer.processBlockRange: factory creation
events first (registering new addresses), then every address currently
in the watch-set, including ones discovered in this same range. -/
def processBlockRange (env : IndexEnv) (st : IState) (fromB toB : Nat) : IState :=
  let st1 := indexMarketCreatedEvents env st fromB toB
  st1.watch.foldl (fun s m => indexMarketEvents env s m fromB toB) st1

/-- The end of the batch starting at start:
start + batchSize > toBlock ? toBlock : start + batchSize. -/
def batchEnd (batchSize start toB : Nat) : Nat :=
  if start + batchSize > toB then toB else start + batchSize

/-- Fuel-indexed batch loop of
BlockchainIndexer.processHistoricalEvents; the loop advances start by
batchSize per iteration, so toB + 1 - start iterations always suffice
and the explicit bound makes the recursion structural. -/
def backfillN (env : IndexEnv) (batchSize : Nat) :
    Nat → IState → Nat → Nat → IState
  | 0, st, _, _ => st
  | n + 1, st, start, toB =>
    if batchSize = 0 ∨ toB < start then st
    else
      backfillN env batchSize n
        (processBlockRange env st start (batchEnd batchSize start toB))
        (start + batchSize) toB

/-- Model of the batch loop of
BlockchainIndexer.processHistoricalEvents.  The source loop does not
terminate for a zero batch width, so width 0 is mapped to the empty run
and every theorem assumes a positive width. -/
def backfillFrom (env : IndexEnv) (batchSize : Nat) (st : IState)
    (start toB : Nat) : IState :=
  backfillN env batchSize (toB + 1 - start) st start toB

/-- Fuel-indexed cursor trace of the batch loop. -/
def backfillEndsN (batchSize : Nat) : Nat → Nat → Nat → List Nat
  | 0, _, _ => []
  | n + 1, start, toB =>
    if batchSize = 0 ∨ toB < start then []
    else batchEnd batchSize start toB
      :: backfillEndsN batchSize n (start + batchSize) toB

/-- The successive values taken by this.lastProcessedBlock during the
batch loop: the cursor is set to the batch end after each batch. -/
def backfillEnds (batchSize start toB : Nat) : List Nat :=
  backfillEndsN batchSize (toB + 1 - start) start toB

/-- Cursor update of one poll tick (BlockchainIndexer.startPolling): the
cursor advances to the current block only when the chain is ahead. -/
def pollTickCursor (lastProcessedBlock currentBlock : Nat) : Nat :=
  if currentBlock > lastProcessedBlock then currentBlock else lastProcessedBlock

/-! ### The two status writers as one transition system

The stored status of an entity is written by the indexer
(handleMarketCreated, handleMarketEvent) and by the scheduler
(resolveMarketIfReady); an operation sequence interleaves them freely,
with arbitrary (possibly stale) queried rows on the scheduler side. -/

inductive SysOp where
  | created (l : Log)
  | marketEvent (eventName : String) (l : Log)
  | schedResolve (env : ApiEnv) (nowMs : Nat) (now : Int) (rl : RL)
      (row : SchedMarket) (txResult : Except String Receipt)

/-- One step of either writer acting on the shared store. -/
def sysStep (reads : ChainReads) (st : IState) (op : SysOp) : IState :=
  match op with
  | SysOp.created l => handleMarketCreated st l
  | SysOp.marketEvent en l => handleMarketEvent reads st en l
  | SysOp.schedResolve env nowMs now rl row tx =>
    { st with store := (resolveMarketIfReady env nowMs now rl row tx st.store).2.2 }

/-- The stored status of one entity along an operation sequence,
including the initial state. -/
def statusTrace (reads : ChainReads) (ops : List SysOp) (st : IState)
    (id : String) : List (Option MStatus) :=
  (ops.scanl (sysStep reads) st).map (fun s => statusOf s.store id)

/-- Number of active→resolved transitions along a status trace. -/
def countAR : List (Option MStatus) → Nat
  | some MStatus.active :: some MStatus.resolved :: rest =>
    1 + countAR (some MStatus.resolved :: rest)
  | _ :: y :: rest => countAR (y :: rest)
  | _ => 0

/-! ### Derived notions used by the theorems -/

/-- Number of stored records with the given key. -/
def countKey (s : Store) (k : String × Nat) : Nat :=
  (s.events.filter (fun e => e.transactionHash == k.1 && e.logIndex == k.2)).length

/-- Folding a list of (event kind, log) pairs through handleMarketEvent,
in order. -/
def processEventLogs (reads : ChainReads) (st : IState)
    (items : List (String × Log)) : IState :=
  items.foldl (fun s p => handleMarketEvent reads s p.1 p.2) st

/-- A factory-level creation log. -/
def isCreationLog (factory : String) (l : Log) : Prop :=
  l.address = factory ∧ l.eventName = "MarketCreated"

instance (factory : String) (l : Log) : Decidable (isCreationLog factory l) := by
  unfold isCreationLog
  infer_instance

/-- A log of one of the four per-market kinds the indexer queries. -/
def isKind4 (l : Log) : Bool := kinds4.any (fun en => l.eventName == en)

/-- Well-formedness of a chain log list: per-market events never precede
the creation event of their market, and the factory address is never
itself a created market.  Both hold for any log list an actual chain can
produce. -/
def wfChain (chain : List Log) (factory : String) : Prop :=
  (∀ l ∈ chain, ∀ c ∈ chain, isKind4 l = true → isCreationLog factory c →
    marketIdOf c = l.address → c.blockNumber ≤ l.blockNumber) ∧
  (∀ c ∈ chain, isCreationLog factory c → marketIdOf c ≠ factory)

instance (chain : List Log) (factory : String) : Decidable (wfChain chain factory) := by
  unfold wfChain
  infer_instance

/-- Characterization of the logs whose event record is stored once the
blocks satisfying C have been processed: creation logs in C, and
per-market logs in C whose market has its creation log in C. -/
def storedPred (env : IndexEnv) (C : Nat → Prop) (l : Log) : Prop :=
  l ∈ env.chain ∧ C l.blockNumber ∧
    (isCreationLog env.factory l ∨
      (isKind4 l = true ∧ ∃ c ∈ env.chain, isCreationLog env.factory c ∧
        marketIdOf c = l.address ∧ C c.blockNumber))

/-- Watch-set invariant: the watch-set holds exactly the markets whose
creation log lies in the covered blocks. -/
def InvWatch (env : IndexEnv) (C : Nat → Prop) (st : IState) : Prop :=
  ∀ m, m ∈ st.watch ↔
    ∃ c ∈ env.chain, isCreationLog env.factory c ∧ marketIdOf c = m ∧ C c.blockNumber

/-- Event-key invariant: a key is stored exactly when some log of the
covered blocks carries it and satisfies storedPred. -/
def InvKeys (env : IndexEnv) (C : Nat → Prop) (st : IState) : Prop :=
  ∀ k, hasKey st.store k = true ↔ ∃ l, storedPred env C l ∧ keyOf l = k

def Inv (env : IndexEnv) (C : Nat → Prop) (st : IState) : Prop :=
  InvWatch env C st ∧ InvKeys env C st

/-- The stored idempotency keys, in insertion order. -/
def keysList (s : Store) : List (String × Nat) := s.events.map recordKey

def keysNodup (s : Store) : Prop := (keysList s).Nodup

/-- The initial indexer state: empty watch-set, empty store. -/
def initIState : IState := ⟨[], emptyStore⟩

/-! ## Helper lemmas -/

theorem jsOr2_some_none (x : Int) : jsOr2 (some x) none = x := by
  rcases eq_or_ne x 0 with rfl | h
  · rfl
  · simp [jsOr2, h]

/-- Evaluating extractGameOutcome on a closed game with both primary
score fields present. -/
theorem extractGameOutcome_closed (hs as_ : Int) :
    extractGameOutcome ⟨some hs, none, some as_, none, true, none, none⟩ =
      { status := OutcomeStatus.finished, homeScore := hs, awayScore := as_,
        winner := some (if hs > as_ then Winner.home
          else if as_ > hs then Winner.away else Winner.draw) } := by
  simp only [extractGameOutcome, jsOr2_some_none, Bool.true_or, Bool.not_true,
    Bool.false_eq_true, if_false]

theorem statusOf_marketUpdateStatus_self (s : Store) (id : String) (st : MStatus) :
    statusOf (marketUpdateStatus s id st) id = (statusOf s id).map (fun _ => st) := by
  simp only [statusOf, marketUpdateStatus]
  induction s.markets with
  | nil => rfl
  | cons m ms ih =>
    by_cases h : m.id = id
    · simp [List.find?_cons, h]
    · simpa [List.find?_cons, h] using ih

/-! ## Claim C3: over_under threshold boundary -/

/-- Claim C3 states that in over_under mode a summed score equal to the
threshold maps to winning index 0.  Counterexample: scores 1 and 2 with
threshold 3 give sum 3 = threshold, and the code maps this to index 1,
because over_under uses a strict comparison. -/
theorem C3_counterexample :
    mapOutcome (some "over_under")
      (some ⟨some "g1", some "nfl", some "over_under", none, some 3⟩)
      ⟨OutcomeStatus.finished, 1, 2, some Winner.away⟩ = some 1 ∧
    mapOutcome (some "over_under")
      (some ⟨some "g1", some "nfl", some "over_under", none, some 3⟩)
      ⟨OutcomeStatus.finished, 1, 2, some Winner.away⟩ ≠ some 0 := by
  constructor
  · rfl
  · decide

/-- Claim C3 amended: in over_under mode the summed score is compared
strictly against the threshold — a sum strictly above the threshold maps
to winning index 0 and a sum equal to or below the threshold maps to
index 1 — unlike spread mode, which maps meets-or-exceeds of the score
difference to index 0. -/
theorem C3_amended (hs as_ sp th : Int) (w : Option Winner) :
    mapOutcome (some "over_under")
      (some ⟨some "g1", some "nfl", some "over_under", some sp, some th⟩)
      ⟨OutcomeStatus.finished, hs, as_, w⟩
      = some (if hs + as_ > th then 0 else 1) ∧
    mapOutcome (some "spread")
      (some ⟨some "g1", some "nfl", some "spread", some sp, some th⟩)
      ⟨OutcomeStatus.finished, hs, as_, w⟩
      = some (if hs - as_ ≥ sp then 0 else 1) := by
  constructor <;> rfl

/-! ## Claim C6: winner-mode outcome mapping determinism -/

/-- Claim C6: outcome mapping is a deterministic function of the scores
and the mode.  For a finished game under winner mode, a home lead maps
to index 0, an away lead to index 1, and equal scores yield the draw
winner and map to index 2; the mapped index is given by a total function
of the scores, so repeated evaluation on the same inputs is identical. -/
theorem C6_winner_mapping (hs as_ : Int) :
    (extractGameOutcome ⟨some hs, none, some as_, none, true, none, none⟩).status
      = OutcomeStatus.finished ∧
    (hs = as_ →
      (extractGameOutcome ⟨some hs, none, some as_, none, true, none, none⟩).winner
        = some Winner.draw) ∧
    mapOutcome (some "winner") none
        (extractGameOutcome ⟨some hs, none, some as_, none, true, none, none⟩)
      = some (if hs > as_ then 0 else if as_ > hs then 1 else 2) ∧
    mapOutcome (some "winner") none
        (extractGameOutcome ⟨some hs, none, some as_, none, true, none, none⟩)
      = mapOutcome (some "winner") none
        (extractGameOutcome ⟨some hs, none, some as_, none, true, none, none⟩) := by
  rw [extractGameOutcome_closed]
  refine ⟨rfl, ?_, ?_, rfl⟩
  · intro h
    simp [h]
  · rcases lt_trichotomy as_ hs with h | h | h
    · simp [mapOutcome, h, not_lt.mpr (le_of_lt h)]
    · simp [mapOutcome, h, lt_irrefl]
    · simp [mapOutcome, h, not_lt.mpr (le_of_lt h)]

/-- Witness for C6 at concrete scores. -/
theorem C6_witness :
    (3 : Int) = 3 ∧
    (extractGameOutcome ⟨some 3, none, some 3, none, true, none, none⟩).winner
      = some Winner.draw :=
  ⟨rfl, (C6_winner_mapping 3 3).2.1 rfl⟩

/-! ## Claim C5: rate-limit window boundary -/

theorem checkRateLimit_in_window_ok (N t0 k now : Nat)
    (hw : now - t0 ≤ windowMs) (hk : k < N) :
    checkRateLimit N now ⟨k, t0⟩ = (Except.ok (), ⟨k + 1, t0⟩) := by
  simp [checkRateLimit, not_lt.mpr hw, not_le.mpr hk]

theorem checkRateLimit_in_window_exceeded (N t0 k now : Nat)
    (hw : now - t0 ≤ windowMs) (hk : N ≤ k) :
    checkRateLimit N now ⟨k, t0⟩
      = (Except.error "Rate limit exceeded. Please try again later.", ⟨k, t0⟩) := by
  simp [checkRateLimit, not_lt.mpr hw, hk]

theorem runRequests_window (N t0 : Nat) : ∀ (nows : List Nat) (k : Nat),
    (∀ t ∈ nows, t - t0 ≤ windowMs) → k + nows.length = N + 1 → k ≤ N →
    (runRequests N nows ⟨k, t0⟩).1 = List.replicate (N - k) true ++ [false] := by
  intro nows
  induction nows with
  | nil =>
    intro k _ hlen hk
    exfalso
    simp only [List.length_nil] at hlen
    omega
  | cons t rest ih =>
    intro k hwin hlen hk
    rcases eq_or_lt_of_le hk with rfl | hklt
    · have hrest : rest = [] := by
        have := hlen
        simp only [List.length_cons] at this
        exact List.eq_nil_of_length_eq_zero (by omega)
      subst hrest
      have hstep := checkRateLimit_in_window_exceeded k t0 k t
        (hwin t (by simp)) le_rfl
      simp [runRequests, hstep]
    · have hstep := checkRateLimit_in_window_ok N t0 k t (hwin t (by simp)) hklt
      have hrec := ih (k + 1) (fun u hu => hwin u (by simp [hu]))
        (by simp only [List.length_cons] at hlen; omega) (by omega)
      simp only [runRequests, hstep, hrec]
      have : N - k = (N - (k + 1)) + 1 := by omega
      rw [this, List.replicate_succ]
      simp

/-- Claim C5: within one fixed window exactly the configured number of
requests succeed, the next request fails with the distinguished
rate-limited message while the limiter state is untouched, and a call
made strictly after a full window has elapsed resets the counter and
succeeds again. -/
theorem C5_rate_limit_boundary (N t0 : Nat) (nows : List Nat)
    (hwin : ∀ t ∈ nows, t - t0 ≤ windowMs) (hlen : nows.length = N + 1) :
    (runRequests N nows ⟨0, t0⟩).1 = List.replicate N true ++ [false] ∧
    (∀ (s : RL) (now : Nat), now - s.requestWindowStart > windowMs → 0 < N →
      checkRateLimit N now s = (Except.ok (), ⟨1, now⟩)) := by
  constructor
  · simpa using runRequests_window N t0 nows 0 hwin (by omega) (by omega)
  · intro s now hnow hN
    simp [checkRateLimit, hnow, hN.ne']

/-- Witness for C5 with budget 2 and three requests in one window,
followed by a reset strictly after the window. -/
theorem C5_witness :
    (runRequests 2 [0, 1, 2] ⟨0, 0⟩).1 = List.replicate 2 true ++ [false] ∧
    checkRateLimit 2 (windowMs + 1) ⟨2, 0⟩ = (Except.ok (), ⟨1, windowMs + 1⟩) :=
  ⟨(C5_rate_limit_boundary 2 0 [0, 1, 2] (by decide) (by decide)).1,
   (C5_rate_limit_boundary 2 0 [0, 1, 2] (by decide) (by decide)).2
     ⟨2, 0⟩ (windowMs + 1) (by decide) (by decide)⟩

/-! ## Claim C10: unsupported sport is a per-entity failure -/

/-- Claim C10: for a sport other than nfl, nba or mlb (case-insensitive)
and a cache miss, the outcome lookup throws the Unsupported-sport error
rather than returning a pending outcome; through the resolution path
this becomes the failed outcome for that entity, and the remaining
entities of the same tick are processed exactly as they would have been
without the failing one. -/
theorem C10_unsupported_sport
    (env : ApiEnv) (nowMs : Nat) (now : Int) (rl : RL) (gid sport : String)
    (md : Metadata) (m : SchedMarket) (rest : List SchedMarket)
    (txr : String → Except String Receipt) (store : Store)
    (hcache : env.cache gid = none)
    (h1 : strToLower sport ≠ "nfl") (h2 : strToLower sport ≠ "nba")
    (h3 : strToLower sport ≠ "mlb")
    (hgid : gid ≠ "") (hsne : sport ≠ "")
    (hmd : m.metadata = some md) (hmdg : md.gameId = some gid)
    (hms : md.sport = some sport)
    (hstatus : m.status ≠ MStatus.resolved) (hdue : ¬ now < m.resolutionTime) :
    getGameOutcome env nowMs rl gid sport
      = (Except.error ("Unsupported sport: " ++ sport), rl) ∧
    resolveMarketIfReady env nowMs now rl m (txr m.id) store
      = (SchedOutcome.failed ("Unsupported sport: " ++ sport), rl, store) ∧
    (checkAndResolveMarkets env nowMs now rl (m :: rest) txr store).1
      = SchedOutcome.failed ("Unsupported sport: " ++ sport)
        :: (checkAndResolveMarkets env nowMs now rl rest txr store).1 := by
  have hg : getGameOutcome env nowMs rl gid sport
      = (Except.error ("Unsupported sport: " ++ sport), rl) := by
    simp [getGameOutcome, hcache, h1, h2, h3]
  have hrm : resolveMarket env nowMs rl m.metadata
      = (Except.error ("Unsupported sport: " ++ sport), rl) := by
    simp [resolveMarket, hmd, hmdg, hms, jsStr, hgid, hsne, hg]
  have hr : resolveMarketIfReady env nowMs now rl m (txr m.id) store
      = (SchedOutcome.failed ("Unsupported sport: " ++ sport), rl, store) := by
    simp [resolveMarketIfReady, hstatus, hdue, hrm]
  exact ⟨hg, hr, by simp [checkAndResolveMarkets, hr]⟩

/-- Witness for C10: a soccer market fails with the Unsupported-sport
error and leaves the limiter state and the store untouched. -/
theorem C10_witness :
    resolveMarketIfReady ⟨10, fun _ => none, fun _ => Except.error "down"⟩ 0 0 ⟨0, 0⟩
        ⟨"M1", MStatus.active, 0,
          some ⟨some "g1", some "soccer", some "winner", none, none⟩⟩
        (Except.ok ⟨"0xtx"⟩) emptyStore
      = (SchedOutcome.failed ("Unsupported sport: " ++ "soccer"), ⟨0, 0⟩, emptyStore) :=
  (C10_unsupported_sport ⟨10, fun _ => none, fun _ => Except.error "down"⟩ 0 0 ⟨0, 0⟩
    "g1" "soccer" ⟨some "g1", some "soccer", some "winner", none, none⟩
    ⟨"M1", MStatus.active, 0, some ⟨some "g1", some "soccer", some "winner", none, none⟩⟩
    [] (fun _ => Except.ok ⟨"0xtx"⟩) emptyStore
    rfl (by decide) (by decide) (by decide) (by decide) (by decide)
    rfl rfl rfl (by decide) (by decide)).2.1

/-! ## Claim C7: already-resolved-on-chain is absorbed as success -/

/-- Claim C7: when the settlement transaction fails with a message
matching the distinguished already-resolved condition, the scheduler
absorbs the error instead of failing the entity, and the entity still
ends the operation with status resolved in the projection store. -/
theorem C7_already_resolved_absorbed
    (env : ApiEnv) (nowMs : Nat) (now : Int) (rl rl1 : RL) (market : SchedMarket)
    (txmsg : String) (store : Store) (r : Resolution)
    (hstatus : market.status ≠ MStatus.resolved)
    (hdue : ¬ now < market.resolutionTime)
    (hres : resolveMarket env nowMs rl market.metadata = (Except.ok r, rl1))
    (hr : r.resolved = true)
    (hmsg : containsSub txmsg "already resolved" = true
      ∨ containsSub txmsg "MarketResolved" = true) :
    resolveMarketIfReady env nowMs now rl market (Except.error txmsg) store
      = (SchedOutcome.resolvedOk r.winningOutcome, rl1,
          marketUpdateStatus store market.id MStatus.resolved) ∧
    statusOf (resolveMarketIfReady env nowMs now rl market
        (Except.error txmsg) store).2.2 market.id
      = (statusOf store market.id).map (fun _ => MStatus.resolved) := by
  have hcall : callResolveMarket (Except.error txmsg) = Except.ok none := by
    rcases hmsg with h | h <;> simp [callResolveMarket, h]
  have hmain : resolveMarketIfReady env nowMs now rl market (Except.error txmsg) store
      = (SchedOutcome.resolvedOk r.winningOutcome, rl1,
          marketUpdateStatus store market.id MStatus.resolved) := by
    simp [resolveMarketIfReady, hstatus, hdue, hres, hr, hcall]
  refine ⟨hmain, ?_⟩
  rw [hmain]
  exact statusOf_marketUpdateStatus_self store market.id MStatus.resolved

/-- Witness for C7: a reverted settlement with an already-resolved
message still ends with the stored status resolved. -/
theorem C7_witness :
    resolveMarketIfReady
        ⟨10, fun _ => some ⟨OutcomeStatus.finished, 3, 1, some Winner.home⟩,
          fun _ => Except.error "down"⟩ 0 0 ⟨0, 0⟩
        ⟨"M1", MStatus.active, 0, some ⟨some "g1", none, some "winner", none, none⟩⟩
        (Except.error "execution reverted: market already resolved")
        ⟨[], [⟨"M1", MStatus.active, 0, 0⟩], [], []⟩
      = (SchedOutcome.resolvedOk (some 0), ⟨0, 0⟩,
          marketUpdateStatus ⟨[], [⟨"M1", MStatus.active, 0, 0⟩], [], []⟩ "M1"
            MStatus.resolved) ∧
    statusOf (resolveMarketIfReady
        ⟨10, fun _ => some ⟨OutcomeStatus.finished, 3, 1, some Winner.home⟩,
          fun _ => Except.error "down"⟩ 0 0 ⟨0, 0⟩
        ⟨"M1", MStatus.active, 0, some ⟨some "g1", none, some "winner", none, none⟩⟩
        (Except.error "execution reverted: market already resolved")
        ⟨[], [⟨"M1", MStatus.active, 0, 0⟩], [], []⟩).2.2 "M1"
      = some MStatus.resolved := by
  have h := C7_already_resolved_absorbed
    ⟨10, fun _ => some ⟨OutcomeStatus.finished, 3, 1, some Winner.home⟩,
      fun _ => Except.error "down"⟩ 0 0 ⟨0, 0⟩ ⟨0, 0⟩
    ⟨"M1", MStatus.active, 0, some ⟨some "g1", none, some "winner", none, none⟩⟩
    "execution reverted: market already resolved"
    ⟨[], [⟨"M1", MStatus.active, 0, 0⟩], [], []⟩ ⟨true, some 0, none⟩
    (by decide) (by decide) rfl rfl (Or.inl (by decide))
  exact ⟨h.1, by rw [h.2]; rfl⟩

/-! ## Claim C4: unrecognized outcome-mapping modes -/

/-- Claim C4 states that an unrecognized mode yields no resolution, the
scheduler skips the entity, no settlement transaction is submitted, and
no status change occurs.  Counterexample: with mode custom on a finished
cached game, resolveMarket returns resolved with a null winning index,
resolveMarketIfReady does not skip but reaches the settlement call and
ends with the entity marked resolved. -/
theorem C4_counterexample :
    (resolveMarket ⟨10, fun _ => some ⟨OutcomeStatus.finished, 3, 1, some Winner.home⟩,
        fun _ => Except.error "down"⟩ 0 ⟨0, 0⟩
        (some ⟨some "g1", some "nfl", some "custom", none, none⟩)).1
      = Except.ok ⟨true, none, none⟩ ∧
    (resolveMarketIfReady ⟨10, fun _ => some ⟨OutcomeStatus.finished, 3, 1, some Winner.home⟩,
        fun _ => Except.error "down"⟩ 0 0 ⟨0, 0⟩
        ⟨"M1", MStatus.active, 0, some ⟨some "g1", some "nfl", some "custom", none, none⟩⟩
        (Except.ok ⟨"0xtx"⟩) ⟨[], [⟨"M1", MStatus.active, 0, 0⟩], [], []⟩).1
      = SchedOutcome.resolvedOk none ∧
    statusOf (resolveMarketIfReady
        ⟨10, fun _ => some ⟨OutcomeStatus.finished, 3, 1, some Winner.home⟩,
          fun _ => Except.error "down"⟩ 0 0 ⟨0, 0⟩
        ⟨"M1", MStatus.active, 0, some ⟨some "g1", some "nfl", some "custom", none, none⟩⟩
        (Except.ok ⟨"0xtx"⟩) ⟨[], [⟨"M1", MStatus.active, 0, 0⟩], [], []⟩).2.2 "M1"
      = some MStatus.resolved ∧
    statusOf ⟨[], [⟨"M1", MStatus.active, 0, 0⟩], [], []⟩ "M1" = some MStatus.active := by
  refine ⟨rfl, rfl, rfl, rfl⟩

/-- Claim C4 amended: for an entity whose configured mode is not one of
winner, spread or over_under, the mapping yields a null winning index
but the resolution is still reported as resolved, so the scheduler does
not skip the entity: it submits the settlement transaction with a null
outcome and marks the entity resolved. -/
theorem C4_amended
    (t : Option String) (mdo : Option Metadata) (o : Outcome)
    (env : ApiEnv) (nowMs : Nat) (now : Int) (rl : RL) (gid : String)
    (md : Metadata) (m : SchedMarket) (store : Store) (receipt : Receipt)
    (h1 : t ≠ some "winner") (h2 : t ≠ some "spread") (h3 : t ≠ some "over_under")
    (hcache : env.cache gid = some o) (ho : o.status = OutcomeStatus.finished)
    (hgid : gid ≠ "")
    (hmd : m.metadata = some md) (hmdg : md.gameId = some gid)
    (hmt : md.outcomeType = t)
    (hstatus : m.status ≠ MStatus.resolved) (hdue : ¬ now < m.resolutionTime) :
    mapOutcome t mdo o = none ∧
    resolveMarket env nowMs rl m.metadata = (Except.ok ⟨true, none, none⟩, rl) ∧
    resolveMarketIfReady env nowMs now rl m (Except.ok receipt) store
      = (SchedOutcome.resolvedOk none, rl,
          marketUpdateStatus store m.id MStatus.resolved) := by
  have hmap : ∀ (mdo1 : Option Metadata), mapOutcome t mdo1 o = none := by
    intro mdo1
    rw [mapOutcome.eq_def]
    split
    · exact absurd rfl h1
    · exact absurd rfl h2
    · exact absurd rfl h3
    · rfl
  have hgo : getGameOutcome env nowMs rl gid (jsStr md.sport "nfl")
      = (Except.ok o, rl) := by
    simp [getGameOutcome, hcache]
  have hjs : jsStr md.gameId "" = gid := by
    rw [hmdg]
    simp [jsStr, hgid]
  have hrm : resolveMarket env nowMs rl m.metadata
      = (Except.ok ⟨true, none, none⟩, rl) := by
    simp [resolveMarket, hmd, hjs, hgid, hgo, ho, hmt, hmap]
  refine ⟨hmap mdo, hrm, ?_⟩
  simp [resolveMarketIfReady, hstatus, hdue, hrm, callResolveMarket]

/-- Witness for C4 at a concrete custom mode. -/
theorem C4_witness :
    resolveMarketIfReady ⟨10, fun _ => some ⟨OutcomeStatus.finished, 2, 2, some Winner.draw⟩,
        fun _ => Except.error "down"⟩ 0 0 ⟨0, 0⟩
        ⟨"M2", MStatus.active, 0, some ⟨some "g2", none, some "exotic", none, none⟩⟩
        (Except.ok ⟨"0xtx"⟩) emptyStore
      = (SchedOutcome.resolvedOk none, ⟨0, 0⟩,
          marketUpdateStatus emptyStore "M2" MStatus.resolved) :=
  (C4_amended (some "exotic") none ⟨OutcomeStatus.finished, 2, 2, some Winner.draw⟩
    ⟨10, fun _ => some ⟨OutcomeStatus.finished, 2, 2, some Winner.draw⟩,
      fun _ => Except.error "down"⟩ 0 0 ⟨0, 0⟩ "g2"
    ⟨some "g2", none, some "exotic", none, none⟩
    ⟨"M2", MStatus.active, 0, some ⟨some "g2", none, some "exotic", none, none⟩⟩
    emptyStore ⟨"0xtx"⟩
    (by decide) (by decide) (by decide) rfl rfl (by decide)
    rfl rfl rfl (by decide) (by decide)).2.2

/-! ## Claim C8: monotonic cursor -/

theorem chainLe_head_mono {a b : Nat} {l : List Nat} (hba : b ≤ a)
    (h : List.Chain (· ≤ ·) a l) : List.Chain (· ≤ ·) b l := by
  cases h with
  | nil => exact List.Chain.nil
  | cons hac hrest => exact List.Chain.cons (le_trans hba hac) hrest

theorem backfillEndsN_chain (B : Nat) : ∀ (n s t : Nat),
    List.Chain (· ≤ ·) s (backfillEndsN B n s t) := by
  intro n
  induction n with
  | zero => intro s t; exact List.Chain.nil
  | succ n ih =>
    intro s t
    simp only [backfillEndsN]
    split
    · exact List.Chain.nil
    · rename_i h
      push_neg at h
      refine List.Chain.cons ?_ (chainLe_head_mono ?_ (ih (s + B) t))
      · unfold batchEnd
        split <;> omega
      · unfold batchEnd
        split <;> omega

theorem backfillEnds_chain (B : Nat) : ∀ (s t : Nat),
    List.Chain (· ≤ ·) s (backfillEnds B s t) := by
  intro s t
  exact backfillEndsN_chain B (t + 1 - s) s t

/-- Claim C8: the last-processed-height cursor is monotonically
non-decreasing within one run: a poll tick never lowers it, and the
successive cursor values written by the backfill batch loop form a
non-decreasing chain starting from the initial height. -/
theorem C8_monotonic_cursor :
    (∀ last cur : Nat, last ≤ pollTickCursor last cur) ∧
    (∀ (B s t : Nat), List.Chain (· ≤ ·) s (backfillEnds B s t)) := by
  constructor
  · intro last cur
    unfold pollTickCursor
    split <;> omega
  · exact backfillEnds_chain

/-! ## Store-operation lemmas -/

@[simp] theorem events_userUpsert (s : Store) (u : String) :
    (userUpsert s u).events = s.events := by
  unfold userUpsert
  split <;> rfl

@[simp] theorem events_userUpdateStats (s : Store) (u : String) (dt : Nat) (dv : Int) :
    (userUpdateStats s u dt dv).events = s.events := rfl

@[simp] theorem events_snapshotCreate (s : Store) (snap : Snapshot) :
    (snapshotCreate s snap).events = s.events := rfl

@[simp] theorem events_marketUpsert (s : Store) (id : String) :
    (marketUpsert s id).events = s.events := by
  unfold marketUpsert
  split <;> rfl

@[simp] theorem events_marketUpdateStatus (s : Store) (id : String) (st : MStatus) :
    (marketUpdateStatus s id st).events = s.events := rfl

@[simp] theorem events_marketUpdateVolume (s : Store) (id : String) (v l : Int) :
    (marketUpdateVolume s id v l).events = s.events := rfl

@[simp] theorem events_updateMarketSnapshot (reads : ChainReads) (s : Store)
    (id : String) : (updateMarketSnapshot reads s id).events = s.events := by
  unfold updateMarketSnapshot
  split <;> simp

@[simp] theorem userStats_appendEvent (s : Store) (e : EventRecord) :
    (appendEvent s e).userStats = s.userStats := by
  unfold appendEvent
  split <;> rfl

@[simp] theorem userStats_marketUpsert (s : Store) (id : String) :
    (marketUpsert s id).userStats = s.userStats := by
  unfold marketUpsert
  split <;> rfl

@[simp] theorem userStats_marketUpdateStatus (s : Store) (id : String) (st : MStatus) :
    (marketUpdateStatus s id st).userStats = s.userStats := rfl

@[simp] theorem userStats_marketUpdateVolume (s : Store) (id : String) (v l : Int) :
    (marketUpdateVolume s id v l).userStats = s.userStats := rfl

@[simp] theorem userStats_snapshotCreate (s : Store) (snap : Snapshot) :
    (snapshotCreate s snap).userStats = s.userStats := rfl

@[simp] theorem userStats_updateMarketSnapshot (reads : ChainReads) (s : Store)
    (id : String) : (updateMarketSnapshot reads s id).userStats = s.userStats := by
  unfold updateMarketSnapshot
  split <;> simp

theorem hasKey_congr_events {s1 s2 : Store} (h : s1.events = s2.events)
    (k : String × Nat) : hasKey s1 k = hasKey s2 k := by
  unfold hasKey
  rw [h]

theorem hasKey_iff (s : Store) (k : String × Nat) :
    hasKey s k = true ↔ ∃ e ∈ s.events, recordKey e = k := by
  simp [hasKey, List.any_eq_true, recordKey, Prod.ext_iff]

theorem hasKey_appendEvent_iff (s : Store) (e : EventRecord) (k : String × Nat) :
    hasKey (appendEvent s e) k = true ↔ hasKey s k = true ∨ recordKey e = k := by
  unfold appendEvent
  split
  · rename_i hin
    constructor
    · exact Or.inl
    · rintro (h | rfl)
      · exact h
      · exact hin
  · simp [hasKey, List.any_append, recordKey, Prod.ext_iff]

theorem events_appendEvent_of_hasKey (s : Store) (e : EventRecord)
    (h : hasKey s (recordKey e) = true) : appendEvent s e = s := by
  unfold appendEvent
  simp [h]

theorem statsOf_appendEvent (s : Store) (e : EventRecord) (u : String) :
    statsOf (appendEvent s e) u = statsOf s u := by
  unfold statsOf
  rw [userStats_appendEvent]

theorem find?_append_none {α : Type} (p : α → Bool) {l1 : List α} (l2 : List α)
    (h : l1.find? p = none) : (l1 ++ l2).find? p = l2.find? p := by
  induction l1 with
  | nil => rfl
  | cons a l ih =>
    rcases hpa : p a with _ | _
    · rw [List.cons_append, List.find?_cons_of_neg _ (by simp [hpa]),
        ih (by rwa [List.find?_cons_of_neg _ (by simp [hpa])] at h)]
    · rw [List.find?_cons_of_pos _ hpa] at h
      exact absurd h (by simp)

theorem statsOf_userUpsert_self (s : Store) (u : String) :
    statsOf (userUpsert s u) u = some ((statsOf s u).getD ⟨0, 0⟩) := by
  unfold userUpsert statsOf
  split
  · rename_i hin
    simp only [List.any_eq_true, beq_iff_eq] at hin
    obtain ⟨p, hp, hpu⟩ := hin
    have hsome : (s.userStats.find? (fun q => q.1 == u)).isSome = true := by
      rw [List.find?_isSome]
      exact ⟨p, hp, by simp [hpu]⟩
    obtain ⟨w, hw⟩ := Option.isSome_iff_exists.mp hsome
    rw [hw]
    rfl
  · rename_i hout
    simp only [List.any_eq_true, beq_iff_eq, not_exists, not_and] at hout
    have hnone : s.userStats.find? (fun q => q.1 == u) = none := by
      rw [List.find?_eq_none]
      intro q hq
      simp [hout q hq]
    rw [find?_append_none _ _ hnone, hnone]
    simp

theorem statsOf_userUpdateStats_self (s : Store) (u : String) (dt : Nat) (dv : Int) :
    statsOf (userUpdateStats s u dt dv) u
      = (statsOf s u).map (fun w => ⟨w.totalTrades + dt, w.totalVolume + dv⟩) := by
  unfold userUpdateStats statsOf
  induction s.userStats with
  | nil => rfl
  | cons q qs ih =>
    by_cases hq : q.1 = u
    · simp [List.find?_cons, hq]
    · simpa [List.find?_cons, hq] using ih

@[simp] theorem hasKey_userUpsert (s : Store) (u : String) (k : String × Nat) :
    hasKey (userUpsert s u) k = hasKey s k :=
  hasKey_congr_events (events_userUpsert s u) k

@[simp] theorem hasKey_userUpdateStats (s : Store) (u : String) (dt : Nat) (dv : Int)
    (k : String × Nat) : hasKey (userUpdateStats s u dt dv) k = hasKey s k :=
  hasKey_congr_events (events_userUpdateStats s u dt dv) k

@[simp] theorem hasKey_snapshotCreate (s : Store) (snap : Snapshot) (k : String × Nat) :
    hasKey (snapshotCreate s snap) k = hasKey s k :=
  hasKey_congr_events (events_snapshotCreate s snap) k

@[simp] theorem hasKey_marketUpsert (s : Store) (id : String) (k : String × Nat) :
    hasKey (marketUpsert s id) k = hasKey s k :=
  hasKey_congr_events (events_marketUpsert s id) k

@[simp] theorem hasKey_marketUpdateStatus (s : Store) (id : String) (st : MStatus)
    (k : String × Nat) : hasKey (marketUpdateStatus s id st) k = hasKey s k :=
  hasKey_congr_events (events_marketUpdateStatus s id st) k

@[simp] theorem hasKey_marketUpdateVolume (s : Store) (id : String) (v l : Int)
    (k : String × Nat) : hasKey (marketUpdateVolume s id v l) k = hasKey s k :=
  hasKey_congr_events (events_marketUpdateVolume s id v l) k

@[simp] theorem hasKey_updateMarketSnapshot (reads : ChainReads) (s : Store)
    (id : String) (k : String × Nat) :
    hasKey (updateMarketSnapshot reads s id) k = hasKey s k :=
  hasKey_congr_events (events_updateMarketSnapshot reads s id) k

/-! ## Handler-level lemmas -/

@[simp] theorem watch_handleMarketEvent (reads : ChainReads) (st : IState)
    (en : String) (l : Log) : (handleMarketEvent reads st en l).watch = st.watch := rfl

theorem watch_handleMarketCreated (st : IState) (l : Log) :
    (handleMarketCreated st l).watch = watchInsert st.watch (marketIdOf l) := rfl

theorem mem_watchInsert (w : List String) (x m : String) :
    m ∈ watchInsert w x ↔ m ∈ w ∨ m = x := by
  unfold watchInsert
  split
  · rename_i hin
    simp only [List.any_eq_true, beq_iff_eq] at hin
    obtain ⟨y, hy, rfl⟩ := hin
    constructor
    · exact Or.inl
    · rintro (h | rfl)
      · exact h
      · exact hy
  · simp

theorem hasKey_handleMarketEvent_iff (reads : ChainReads) (st : IState)
    (en : String) (l : Log) (k : String × Nat) :
    hasKey (handleMarketEvent reads st en l).store k = true ↔
      hasKey st.store k = true ∨ keyOf l = k := by
  show hasKey (handleMarketEvent reads st en l).store k = true ↔ _
  unfold handleMarketEvent
  cases hu : userAddressOf l <;> rcases ht : isTradeKind en <;>
    rcases hm : en == "MarketResolved" <;>
      simp [hu, ht, hm, hasKey_appendEvent_iff, recordKey, keyOf,
        genericRecordOf, resolvedRecordOf, Prod.ext_iff,
        or_assoc, or_comm, or_left_comm, and_assoc]

theorem hasKey_handleMarketCreated_iff (st : IState) (l : Log) (k : String × Nat) :
    hasKey (handleMarketCreated st l).store k = true ↔
      hasKey st.store k = true ∨ keyOf l = k := by
  unfold handleMarketCreated
  simp [hasKey_appendEvent_iff, recordKey, keyOf, Prod.ext_iff]

theorem events_handleMarketEvent_of_hasKey (reads : ChainReads) (st : IState)
    (en : String) (l : Log) (h : hasKey st.store (keyOf l) = true) :
    (handleMarketEvent reads st en l).store.events = st.store.events := by
  unfold handleMarketEvent
  have h1 : appendEvent st.store (genericRecordOf en l) = st.store :=
    events_appendEvent_of_hasKey _ _ h
  dsimp only
  rw [h1]
  cases hu : userAddressOf l <;> rcases ht : isTradeKind en <;>
    rcases hm : en == "MarketResolved" <;>
      simp only [hu, ht, hm, Bool.false_eq_true, if_false, if_true]
  all_goals
    first
    | simp
    | (rw [events_appendEvent_of_hasKey]
       · simp
       · simpa [recordKey] using h)

theorem recordKey_genericRecordOf (en : String) (l : Log) :
    recordKey (genericRecordOf en l) = keyOf l := rfl

theorem recordKey_resolvedRecordOf (l : Log) :
    recordKey (resolvedRecordOf l) = keyOf l := rfl

theorem statsOf_congr {s1 s2 : Store} (h : s1.userStats = s2.userStats)
    (u : String) : statsOf s1 u = statsOf s2 u := by
  unfold statsOf
  rw [h]

theorem isTradeKind_ne_resolved {en : String} (ht : isTradeKind en = true) :
    (en == "MarketResolved") = false := by
  unfold isTradeKind at ht
  rcases Bool.or_eq_true_iff.mp ht with h | h <;>
    · rw [beq_iff_eq] at h
      subst h
      decide

theorem statsOf_handleMarketEvent_trade (reads : ChainReads) (st : IState)
    (en : String) (l : Log) (u : String)
    (hu : userAddressOf l = some u) (ht : isTradeKind en = true) :
    statsOf (handleMarketEvent reads st en l).store u
      = some ⟨((statsOf st.store u).getD ⟨0, 0⟩).totalTrades + 1,
              ((statsOf st.store u).getD ⟨0, 0⟩).totalVolume + costOf l⟩ := by
  unfold handleMarketEvent
  dsimp only
  rw [hu]
  simp only [ht, if_true, isTradeKind_ne_resolved ht, Bool.false_eq_true, if_false]
  rw [statsOf_congr (userStats_updateMarketSnapshot reads _ l.address) u,
    statsOf_userUpdateStats_self, statsOf_userUpsert_self, statsOf_appendEvent]
  rfl

theorem countKey_congr_events {s1 s2 : Store} (h : s1.events = s2.events)
    (k : String × Nat) : countKey s1 k = countKey s2 k := by
  unfold countKey
  rw [h]

theorem countKey_eq_zero_iff (s : Store) (k : String × Nat) :
    countKey s k = 0 ↔ hasKey s k = false := by
  constructor
  · intro h
    rw [Bool.eq_false_iff]
    intro hk
    simp only [countKey, List.length_eq_zero] at h
    simp only [hasKey, List.any_eq_true] at hk
    obtain ⟨e, he, hpe⟩ := hk
    have : e ∈ s.events.filter (fun e2 => e2.transactionHash == k.1 && e2.logIndex == k.2) :=
      List.mem_filter.mpr ⟨he, hpe⟩
    rw [h] at this
    exact absurd this (List.not_mem_nil e)
  · intro h
    simp only [countKey, List.length_eq_zero, List.filter_eq_nil_iff]
    intro e he
    rw [Bool.eq_false_iff] at h
    intro hpe
    exact h (by simp only [hasKey, List.any_eq_true]; exact ⟨e, he, hpe⟩)

theorem countKey_appendEvent_new (s : Store) (e : EventRecord)
    (h : hasKey s (recordKey e) = false) :
    countKey (appendEvent s e) (recordKey e) = countKey s (recordKey e) + 1 := by
  unfold appendEvent
  rw [h]
  simp [countKey, List.filter_append, recordKey]

/-! ## Fold characterization lemmas -/

theorem watch_foldlEvents (reads : ChainReads) (en : String) :
    ∀ (logs : List Log) (st : IState),
    (logs.foldl (fun s l2 => handleMarketEvent reads s en l2) st).watch = st.watch := by
  intro logs
  induction logs with
  | nil => intro st; rfl
  | cons l ls ih =>
    intro st
    rw [List.foldl_cons, ih, watch_handleMarketEvent]

theorem hasKey_foldlEvents_iff (reads : ChainReads) (en : String) :
    ∀ (logs : List Log) (st : IState) (k : String × Nat),
    hasKey (logs.foldl (fun s l2 => handleMarketEvent reads s en l2) st).store k = true ↔
      hasKey st.store k = true ∨ ∃ l2 ∈ logs, keyOf l2 = k := by
  intro logs
  induction logs with
  | nil => intro st k; simp
  | cons l ls ih =>
    intro st k
    rw [List.foldl_cons, ih, hasKey_handleMarketEvent_iff]
    simp [or_assoc]

theorem watch_foldlCreated_mem : ∀ (logs : List Log) (st : IState) (m : String),
    m ∈ (logs.foldl handleMarketCreated st).watch ↔
      m ∈ st.watch ∨ ∃ c ∈ logs, marketIdOf c = m := by
  intro logs
  induction logs with
  | nil => intro st m; simp
  | cons l ls ih =>
    intro st m
    rw [List.foldl_cons, ih, watch_handleMarketCreated, mem_watchInsert]
    constructor
    · rintro ((h | h) | h)
      · exact Or.inl h
      · exact Or.inr ⟨l, by simp [h.symm]⟩
      · obtain ⟨c, hc, hcm⟩ := h
        exact Or.inr ⟨c, by simp [hc], hcm⟩
    · rintro (h | ⟨c, hc, hcm⟩)
      · exact Or.inl (Or.inl h)
      · rcases List.mem_cons.mp hc with rfl | hc2
        · exact Or.inl (Or.inr hcm.symm)
        · exact Or.inr ⟨c, hc2, hcm⟩

theorem hasKey_foldlCreated_iff : ∀ (logs : List Log) (st : IState) (k : String × Nat),
    hasKey (logs.foldl handleMarketCreated st).store k = true ↔
      hasKey st.store k = true ∨ ∃ c ∈ logs, keyOf c = k := by
  intro logs
  induction logs with
  | nil => intro st k; simp
  | cons l ls ih =>
    intro st k
    rw [List.foldl_cons, ih, hasKey_handleMarketCreated_iff]
    simp [or_assoc]

theorem mem_queryLogs (chain : List Log) (addr en : String) (f t : Nat) (l : Log) :
    l ∈ queryLogs chain addr en f t ↔
      l ∈ chain ∧ l.address = addr ∧ l.eventName = en
        ∧ f ≤ l.blockNumber ∧ l.blockNumber ≤ t := by
  simp [queryLogs, List.mem_filter, and_assoc]

theorem isKind4_iff (l : Log) : isKind4 l = true ↔
    l.eventName = "SharesPurchased" ∨ l.eventName = "SharesSold"
      ∨ l.eventName = "LiquidityAdded" ∨ l.eventName = "MarketResolved" := by
  simp only [isKind4, kinds4, List.any_eq_true, List.mem_cons,
    List.not_mem_nil, or_false, beq_iff_eq]
  constructor
  · rintro ⟨x, hx, rfl⟩
    tauto
  · rintro (h | h | h | h) <;> exact ⟨l.eventName, by tauto, rfl⟩

theorem watch_indexEventType (env : IndexEnv) (st : IState) (m en : String)
    (f t : Nat) : (indexEventType env st m en f t).watch = st.watch :=
  watch_foldlEvents env.reads en _ st

theorem hasKey_indexEventType_iff (env : IndexEnv) (st : IState) (m en : String)
    (f t : Nat) (k : String × Nat) :
    hasKey (indexEventType env st m en f t).store k = true ↔
      hasKey st.store k = true ∨
        ∃ l ∈ env.chain, l.address = m ∧ l.eventName = en
          ∧ f ≤ l.blockNumber ∧ l.blockNumber ≤ t ∧ keyOf l = k := by
  unfold indexEventType
  rw [hasKey_foldlEvents_iff]
  simp [mem_queryLogs, and_assoc]

theorem watch_indexMarketEvents (env : IndexEnv) (st : IState) (m : String)
    (f t : Nat) : (indexMarketEvents env st m f t).watch = st.watch := by
  unfold indexMarketEvents kinds4
  simp only [List.foldl_cons, List.foldl_nil]
  rw [watch_indexEventType, watch_indexEventType, watch_indexEventType,
    watch_indexEventType]

theorem hasKey_indexMarketEvents_iff (env : IndexEnv) (st : IState) (m : String)
    (f t : Nat) (k : String × Nat) :
    hasKey (indexMarketEvents env st m f t).store k = true ↔
      hasKey st.store k = true ∨
        ∃ l ∈ env.chain, l.address = m ∧ isKind4 l = true
          ∧ f ≤ l.blockNumber ∧ l.blockNumber ≤ t ∧ keyOf l = k := by
  unfold indexMarketEvents kinds4
  simp only [List.foldl_cons, List.foldl_nil]
  rw [hasKey_indexEventType_iff, hasKey_indexEventType_iff,
    hasKey_indexEventType_iff, hasKey_indexEventType_iff]
  simp only [isKind4_iff]
  constructor
  · rintro ((((h | ⟨l, hl, ha, hen, hr⟩) | ⟨l, hl, ha, hen, hr⟩)
      | ⟨l, hl, ha, hen, hr⟩) | ⟨l, hl, ha, hen, hr⟩)
    · exact Or.inl h
    · exact Or.inr ⟨l, hl, ha, by tauto, hr.1, hr.2⟩
    · exact Or.inr ⟨l, hl, ha, by tauto, hr.1, hr.2⟩
    · exact Or.inr ⟨l, hl, ha, by tauto, hr.1, hr.2⟩
    · exact Or.inr ⟨l, hl, ha, by tauto, hr.1, hr.2⟩
  · rintro (h | ⟨l, hl, ha, (hen | hen | hen | hen), hr1, hr2, hr3⟩)
    · exact Or.inl (Or.inl (Or.inl (Or.inl h)))
    · exact Or.inl (Or.inl (Or.inl (Or.inr ⟨l, hl, ha, hen, hr1, hr2, hr3⟩)))
    · exact Or.inl (Or.inl (Or.inr ⟨l, hl, ha, hen, hr1, hr2, hr3⟩))
    · exact Or.inl (Or.inr ⟨l, hl, ha, hen, hr1, hr2, hr3⟩)
    · exact Or.inr ⟨l, hl, ha, hen, hr1, hr2, hr3⟩

theorem watch_foldlMarkets (env : IndexEnv) (f t : Nat) :
    ∀ (ws : List String) (st : IState),
    (ws.foldl (fun s m => indexMarketEvents env s m f t) st).watch = st.watch := by
  intro ws
  induction ws with
  | nil => intro st; rfl
  | cons w ws2 ih =>
    intro st
    rw [List.foldl_cons, ih, watch_indexMarketEvents]

theorem hasKey_foldlMarkets_iff (env : IndexEnv) (f t : Nat) :
    ∀ (ws : List String) (st : IState) (k : String × Nat),
    hasKey (ws.foldl (fun s m => indexMarketEvents env s m f t) st).store k = true ↔
      hasKey st.store k = true ∨
        ∃ m ∈ ws, ∃ l ∈ env.chain, l.address = m ∧ isKind4 l = true
          ∧ f ≤ l.blockNumber ∧ l.blockNumber ≤ t ∧ keyOf l = k := by
  intro ws
  induction ws with
  | nil => intro st k; simp
  | cons w ws2 ih =>
    intro st k
    rw [List.foldl_cons, ih, hasKey_indexMarketEvents_iff]
    simp [or_assoc]

theorem watch_indexMarketCreatedEvents_mem (env : IndexEnv) (st : IState)
    (f t : Nat) (m : String) :
    m ∈ (indexMarketCreatedEvents env st f t).watch ↔
      m ∈ st.watch ∨ ∃ c ∈ env.chain, isCreationLog env.factory c
        ∧ marketIdOf c = m ∧ f ≤ c.blockNumber ∧ c.blockNumber ≤ t := by
  unfold indexMarketCreatedEvents
  rw [watch_foldlCreated_mem]
  refine or_congr Iff.rfl ?_
  constructor
  · rintro ⟨c, hc, hm⟩
    rw [mem_queryLogs] at hc
    exact ⟨c, hc.1, ⟨hc.2.1, hc.2.2.1⟩, hm, hc.2.2.2.1, hc.2.2.2.2⟩
  · rintro ⟨c, hc, hcr, hm, h1, h2⟩
    exact ⟨c, (mem_queryLogs _ _ _ _ _ _).mpr ⟨hc, hcr.1, hcr.2, h1, h2⟩, hm⟩

theorem hasKey_indexMarketCreatedEvents_iff (env : IndexEnv) (st : IState)
    (f t : Nat) (k : String × Nat) :
    hasKey (indexMarketCreatedEvents env st f t).store k = true ↔
      hasKey st.store k = true ∨
        ∃ c ∈ env.chain, isCreationLog env.factory c
          ∧ f ≤ c.blockNumber ∧ c.blockNumber ≤ t ∧ keyOf c = k := by
  unfold indexMarketCreatedEvents
  rw [hasKey_foldlCreated_iff]
  refine or_congr Iff.rfl ?_
  constructor
  · rintro ⟨c, hc, hm⟩
    rw [mem_queryLogs] at hc
    exact ⟨c, hc.1, ⟨hc.2.1, hc.2.2.1⟩, hc.2.2.2.1, hc.2.2.2.2, hm⟩
  · rintro ⟨c, hc, hcr, h1, h2, hm⟩
    exact ⟨c, (mem_queryLogs _ _ _ _ _ _).mpr ⟨hc, hcr.1, hcr.2, h1, h2⟩, hm⟩

theorem watch_processBlockRange_mem (env : IndexEnv) (st : IState)
    (f t : Nat) (m : String) :
    m ∈ (processBlockRange env st f t).watch ↔
      m ∈ st.watch ∨ ∃ c ∈ env.chain, isCreationLog env.factory c
        ∧ marketIdOf c = m ∧ f ≤ c.blockNumber ∧ c.blockNumber ≤ t := by
  unfold processBlockRange
  rw [watch_foldlMarkets, watch_indexMarketCreatedEvents_mem]

theorem hasKey_processBlockRange_iff (env : IndexEnv) (st : IState)
    (f t : Nat) (k : String × Nat) :
    hasKey (processBlockRange env st f t).store k = true ↔
      hasKey st.store k = true ∨
        (∃ c ∈ env.chain, isCreationLog env.factory c
          ∧ f ≤ c.blockNumber ∧ c.blockNumber ≤ t ∧ keyOf c = k) ∨
        (∃ m, (m ∈ st.watch ∨ ∃ c ∈ env.chain, isCreationLog env.factory c
            ∧ marketIdOf c = m ∧ f ≤ c.blockNumber ∧ c.blockNumber ≤ t) ∧
          ∃ l ∈ env.chain, l.address = m ∧ isKind4 l = true
            ∧ f ≤ l.blockNumber ∧ l.blockNumber ≤ t ∧ keyOf l = k) := by
  unfold processBlockRange
  rw [hasKey_foldlMarkets_iff, hasKey_indexMarketCreatedEvents_iff]
  constructor
  · rintro ((h | h) | ⟨m, hm, hl⟩)
    · exact Or.inl h
    · exact Or.inr (Or.inl h)
    · exact Or.inr (Or.inr ⟨m, (watch_indexMarketCreatedEvents_mem env st f t m).mp hm, hl⟩)
  · rintro (h | h | ⟨m, hm, hl⟩)
    · exact Or.inl (Or.inl h)
    · exact Or.inl (Or.inr h)
    · exact Or.inr ⟨m, (watch_indexMarketCreatedEvents_mem env st f t m).mpr hm, hl⟩

/-! ## Replay no-op lemmas: appends whose key is already stored leave
the event table unchanged -/

theorem watchInsert_of_mem (w : List String) (m : String) (h : m ∈ w) :
    watchInsert w m = w := by
  unfold watchInsert
  rw [if_pos]
  simp only [List.any_eq_true, beq_iff_eq]
  exact ⟨m, h, rfl⟩

theorem events_handleMarketCreated_of_hasKey (st : IState) (l : Log)
    (h : hasKey st.store (keyOf l) = true) :
    (handleMarketCreated st l).store.events = st.store.events := by
  unfold handleMarketCreated
  dsimp only
  rw [events_appendEvent_of_hasKey]
  · rw [events_marketUpsert]
  · simpa [recordKey, keyOf] using h

theorem events_foldlCreated_of_hasKey : ∀ (logs : List Log) (st : IState),
    (∀ c ∈ logs, hasKey st.store (keyOf c) = true) →
    (logs.foldl handleMarketCreated st).store.events = st.store.events := by
  intro logs
  induction logs with
  | nil => intro st _; rfl
  | cons l ls ih =>
    intro st hall
    rw [List.foldl_cons]
    have he : (handleMarketCreated st l).store.events = st.store.events :=
      events_handleMarketCreated_of_hasKey st l (hall l (by simp))
    rw [ih _ (fun c hc => by
      rw [hasKey_congr_events he]
      exact hall c (by simp [hc])), he]

theorem watch_foldlCreated_of_mem : ∀ (logs : List Log) (st : IState),
    (∀ c ∈ logs, marketIdOf c ∈ st.watch) →
    (logs.foldl handleMarketCreated st).watch = st.watch := by
  intro logs
  induction logs with
  | nil => intro st _; rfl
  | cons l ls ih =>
    intro st hall
    rw [List.foldl_cons]
    have hw : (handleMarketCreated st l).watch = st.watch := by
      rw [watch_handleMarketCreated]
      exact watchInsert_of_mem _ _ (hall l (by simp))
    rw [ih _ (fun c hc => by rw [hw]; exact hall c (by simp [hc])), hw]

theorem events_foldlEvents_of_hasKey (reads : ChainReads) (en : String) :
    ∀ (logs : List Log) (st : IState),
    (∀ l ∈ logs, hasKey st.store (keyOf l) = true) →
    (logs.foldl (fun s l2 => handleMarketEvent reads s en l2) st).store.events
      = st.store.events := by
  intro logs
  induction logs with
  | nil => intro st _; rfl
  | cons l ls ih =>
    intro st hall
    rw [List.foldl_cons]
    have he : (handleMarketEvent reads st en l).store.events = st.store.events :=
      events_handleMarketEvent_of_hasKey reads st en l (hall l (by simp))
    rw [ih _ (fun c hc => by
      rw [hasKey_congr_events he]
      exact hall c (by simp [hc])), he]

theorem events_indexMarketEvents_of_hasKey (env : IndexEnv) (st : IState)
    (m : String) (f t : Nat)
    (hall : ∀ l ∈ env.chain, l.address = m → isKind4 l = true →
      f ≤ l.blockNumber → l.blockNumber ≤ t → hasKey st.store (keyOf l) = true) :
    (indexMarketEvents env st m f t).store.events = st.store.events := by
  unfold indexMarketEvents kinds4
  simp only [List.foldl_cons, List.foldl_nil]
  have step : ∀ (en : String) (st2 : IState), st2.store.events = st.store.events →
      en = "SharesPurchased" ∨ en = "SharesSold" ∨ en = "LiquidityAdded"
        ∨ en = "MarketResolved" →
      (indexEventType env st2 m en f t).store.events = st.store.events := by
    intro en st2 hst2 hen
    unfold indexEventType
    rw [events_foldlEvents_of_hasKey env.reads en _ st2 ?_, hst2]
    intro l hl
    rw [mem_queryLogs] at hl
    rw [hasKey_congr_events hst2]
    exact hall l hl.1 hl.2.1 (by rw [isKind4_iff, hl.2.2.1]; tauto)
      hl.2.2.2.1 hl.2.2.2.2
  exact step _ _ (step _ _ (step _ _ (step _ _ rfl (by tauto)) (by tauto))
    (by tauto)) (by tauto)

theorem events_foldlMarkets_of_hasKey (env : IndexEnv) (f t : Nat) :
    ∀ (ws : List String) (st : IState),
    (∀ m ∈ ws, ∀ l ∈ env.chain, l.address = m → isKind4 l = true →
      f ≤ l.blockNumber → l.blockNumber ≤ t → hasKey st.store (keyOf l) = true) →
    (ws.foldl (fun s m => indexMarketEvents env s m f t) st).store.events
      = st.store.events := by
  intro ws
  induction ws with
  | nil => intro st _; rfl
  | cons w ws2 ih =>
    intro st hall
    rw [List.foldl_cons]
    have he : (indexMarketEvents env st w f t).store.events = st.store.events :=
      events_indexMarketEvents_of_hasKey env st w f t (hall w (by simp))
    rw [ih _ (fun m hm l hl ha hk h1 h2 => by
      rw [hasKey_congr_events he]
      exact hall m (by simp [hm]) l hl ha hk h1 h2), he]

theorem events_handleMarketEvent_of_not_hasKey (reads : ChainReads) (st : IState)
    (en : String) (l : Log) (h : hasKey st.store (keyOf l) = false) :
    (handleMarketEvent reads st en l).store.events
      = st.store.events ++ [genericRecordOf en l] := by
  unfold handleMarketEvent
  dsimp only
  set s1 := appendEvent st.store (genericRecordOf en l) with hs1
  have hs1ev : s1.events = st.store.events ++ [genericRecordOf en l] := by
    rw [hs1]
    unfold appendEvent
    rw [if_neg (by simp [recordKey_genericRecordOf, h])]
  have hk1 : hasKey s1 (keyOf l) = true := by
    rw [hs1, hasKey_appendEvent_iff]
    exact Or.inr rfl
  cases hu : userAddressOf l <;> rcases ht : isTradeKind en <;>
    rcases hm : en == "MarketResolved" <;>
      simp only [hu, ht, hm, Bool.false_eq_true, if_false, if_true]
  all_goals
    try rw [events_appendEvent_of_hasKey _ _ (by simp only [hasKey_marketUpdateStatus,
      hasKey_updateMarketSnapshot, hasKey_userUpdateStats, hasKey_userUpsert,
      hasKey_snapshotCreate, hasKey_marketUpsert, hasKey_marketUpdateVolume]; exact hk1)]
  all_goals
    try simp only [events_marketUpdateStatus, events_updateMarketSnapshot,
      events_userUpdateStats, events_userUpsert, events_snapshotCreate,
      events_marketUpsert, events_marketUpdateVolume]
  all_goals exact hs1ev

theorem events_processBlockRange_replay (env : IndexEnv) (st : IState) (f t : Nat) :
    (processBlockRange env (processBlockRange env st f t) f t).store.events
      = (processBlockRange env st f t).store.events := by
  set st1 := processBlockRange env st f t with hst1
  have hckeys : ∀ c ∈ queryLogs env.chain env.factory "MarketCreated" f t,
      hasKey st1.store (keyOf c) = true := by
    intro c hc
    rw [mem_queryLogs] at hc
    rw [hst1, hasKey_processBlockRange_iff]
    exact Or.inr (Or.inl ⟨c, hc.1, ⟨hc.2.1, hc.2.2.1⟩, hc.2.2.2.1, hc.2.2.2.2, rfl⟩)
  have hev1 : (indexMarketCreatedEvents env st1 f t).store.events = st1.store.events := by
    unfold indexMarketCreatedEvents
    exact events_foldlCreated_of_hasKey _ st1 hckeys
  have hloop : ∀ m ∈ (indexMarketCreatedEvents env st1 f t).watch,
      ∀ l ∈ env.chain, l.address = m → isKind4 l = true →
      f ≤ l.blockNumber → l.blockNumber ≤ t →
      hasKey (indexMarketCreatedEvents env st1 f t).store (keyOf l) = true := by
    intro m hm l hl ha hk h1 h2
    rw [hasKey_congr_events hev1, hst1, hasKey_processBlockRange_iff]
    refine Or.inr (Or.inr ⟨m, ?_, l, hl, ha, hk, h1, h2, rfl⟩)
    rcases (watch_indexMarketCreatedEvents_mem env st1 f t m).mp hm with hm1 | hm2
    · rw [hst1] at hm1
      exact (watch_processBlockRange_mem env st f t m).mp hm1
    · exact Or.inr hm2
  calc (processBlockRange env st1 f t).store.events
      = (indexMarketCreatedEvents env st1 f t).store.events :=
        events_foldlMarkets_of_hasKey env f t _ _ hloop
    _ = st1.store.events := hev1

/-! ## Claim C1: ingestion idempotence at the event key -/

/-- Claim C1 states that reprocessing a block range leaves both the
Event-record count and the user totals unchanged.  Counterexample:
processing the same SharesPurchased log twice stores exactly one event
record, but the user stat totals are updated unconditionally per
processed log, so they come out doubled. -/
theorem C1_counterexample :
    (handleMarketEvent ⟨fun _ => [], fun _ => 0, fun _ => 0⟩ initIState
        "SharesPurchased"
        ⟨"M1", "SharesPurchased", 5, "0xt1", 0, none, none, none, none,
          some "0xA", none, none, none, some 1, some 10, some 100, none,
          none⟩).store.events.length = 1 ∧
    (handleMarketEvent ⟨fun _ => [], fun _ => 0, fun _ => 0⟩
        (handleMarketEvent ⟨fun _ => [], fun _ => 0, fun _ => 0⟩ initIState
          "SharesPurchased"
          ⟨"M1", "SharesPurchased", 5, "0xt1", 0, none, none, none, none,
            some "0xA", none, none, none, some 1, some 10, some 100, none,
            none⟩)
        "SharesPurchased"
        ⟨"M1", "SharesPurchased", 5, "0xt1", 0, none, none, none, none,
          some "0xA", none, none, none, some 1, some 10, some 100, none,
          none⟩).store.events.length = 1 ∧
    statsOf (handleMarketEvent ⟨fun _ => [], fun _ => 0, fun _ => 0⟩ initIState
        "SharesPurchased"
        ⟨"M1", "SharesPurchased", 5, "0xt1", 0, none, none, none, none,
          some "0xA", none, none, none, some 1, some 10, some 100, none,
          none⟩).store "0xA" = some ⟨1, 100⟩ ∧
    statsOf (handleMarketEvent ⟨fun _ => [], fun _ => 0, fun _ => 0⟩
        (handleMarketEvent ⟨fun _ => [], fun _ => 0, fun _ => 0⟩ initIState
          "SharesPurchased"
          ⟨"M1", "SharesPurchased", 5, "0xt1", 0, none, none, none, none,
            some "0xA", none, none, none, some 1, some 10, some 100, none,
            none⟩)
        "SharesPurchased"
        ⟨"M1", "SharesPurchased", 5, "0xt1", 0, none, none, none, none,
          some "0xA", none, none, none, some 1, some 10, some 100, none,
          none⟩).store "0xA" = some ⟨2, 200⟩ ∧
    (some (⟨2, 200⟩ : UserStats) ≠ some (⟨1, 100⟩ : UserStats)) := by
  refine ⟨rfl, rfl, rfl, rfl, by decide⟩

/-- Claim C1 amended: ingestion is idempotent at the (transactionHash,
logIndex) key for Event records only — reprocessing a block range adds
no event rows, a duplicate key is absorbed silently as a no-op with
exactly one stored record, but user stat totals are incremented again
for every reprocessed trade log, so entity user totals after a replay
are not equal to those of a single processing. -/
theorem C1_amended :
    (∀ (env : IndexEnv) (st : IState) (f t : Nat),
      (processBlockRange env (processBlockRange env st f t) f t).store.events
        = (processBlockRange env st f t).store.events) ∧
    (∀ (reads : ChainReads) (st : IState) (en : String) (l : Log),
      hasKey st.store (keyOf l) = true →
      (handleMarketEvent reads st en l).store.events = st.store.events) ∧
    (∀ (reads : ChainReads) (st : IState) (en : String) (l : Log),
      countKey st.store (keyOf l) = 0 →
      countKey (handleMarketEvent reads st en l).store (keyOf l) = 1 ∧
      countKey (handleMarketEvent reads (handleMarketEvent reads st en l) en l).store
        (keyOf l) = 1) ∧
    (∀ (reads : ChainReads) (st : IState) (en : String) (l : Log) (u : String),
      userAddressOf l = some u → isTradeKind en = true →
      statsOf (handleMarketEvent reads (handleMarketEvent reads st en l) en l).store u
        = some ⟨((statsOf (handleMarketEvent reads st en l).store u).getD
              ⟨0, 0⟩).totalTrades + 1,
            ((statsOf (handleMarketEvent reads st en l).store u).getD
              ⟨0, 0⟩).totalVolume + costOf l⟩) := by
  refine ⟨events_processBlockRange_replay, events_handleMarketEvent_of_hasKey,
    ?_, ?_⟩
  · intro reads st en l h0
    have hkf : hasKey st.store (keyOf l) = false := (countKey_eq_zero_iff _ _).mp h0
    have hone : countKey (handleMarketEvent reads st en l).store (keyOf l) = 1 := by
      unfold countKey
      rw [events_handleMarketEvent_of_not_hasKey reads st en l hkf,
        List.filter_append]
      have h00 : (st.store.events.filter (fun e =>
          e.transactionHash == (keyOf l).1 && e.logIndex == (keyOf l).2)) = [] := by
        have := (countKey_eq_zero_iff st.store (keyOf l)).mpr hkf
        simpa [countKey, List.length_eq_zero] using this
      rw [h00]
      simp [keyOf, genericRecordOf]
    refine ⟨hone, ?_⟩
    have hkey1 : hasKey (handleMarketEvent reads st en l).store (keyOf l) = true := by
      rw [hasKey_handleMarketEvent_iff]
      exact Or.inr rfl
    rw [countKey_congr_events
      (events_handleMarketEvent_of_hasKey reads _ en l hkey1)]
    exact hone
  · intro reads st en l u hu ht
    exact statsOf_handleMarketEvent_trade reads _ en l u hu ht

/-- Witness for C1 amended at a concrete duplicated trade log. -/
theorem C1_witness :
    countKey (handleMarketEvent ⟨fun _ => [], fun _ => 0, fun _ => 0⟩
        (handleMarketEvent ⟨fun _ => [], fun _ => 0, fun _ => 0⟩ initIState
          "SharesPurchased"
          ⟨"M1", "SharesPurchased", 5, "0xt1", 0, none, none, none, none,
            some "0xA", none, none, none, some 1, some 10, some 100, none,
            none⟩)
        "SharesPurchased"
        ⟨"M1", "SharesPurchased", 5, "0xt1", 0, none, none, none, none,
          some "0xA", none, none, none, some 1, some 10, some 100, none,
          none⟩).store
      (keyOf ⟨"M1", "SharesPurchased", 5, "0xt1", 0, none, none, none, none,
        some "0xA", none, none, none, some 1, some 10, some 100, none,
        none⟩) = 1 :=
  (C1_amended.2.2.1 ⟨fun _ => [], fun _ => 0, fun _ => 0⟩ initIState
    "SharesPurchased"
    ⟨"M1", "SharesPurchased", 5, "0xt1", 0, none, none, none, none,
      some "0xA", none, none, none, some 1, some 10, some 100, none, none⟩
    (by decide)).2

/-! ## Status-preservation lemmas for the two writers -/

theorem find?_append_some {α : Type} (p : α → Bool) {l1 : List α} (l2 : List α)
    {a : α} (h : l1.find? p = some a) : (l1 ++ l2).find? p = some a := by
  induction l1 with
  | nil => exact absurd h (by simp)
  | cons x l ih =>
    rcases hpx : p x with _ | _
    · rw [List.find?_cons_of_neg _ (by simp [hpx])] at h
      rw [List.cons_append, List.find?_cons_of_neg _ (by simp [hpx])]
      exact ih h
    · rw [List.find?_cons_of_pos _ hpx] at h
      rw [List.cons_append, List.find?_cons_of_pos _ hpx]
      exact h

@[simp] theorem markets_appendEvent (s : Store) (e : EventRecord) :
    (appendEvent s e).markets = s.markets := by
  unfold appendEvent
  split <;> rfl

@[simp] theorem markets_userUpsert (s : Store) (u : String) :
    (userUpsert s u).markets = s.markets := by
  unfold userUpsert
  split <;> rfl

@[simp] theorem markets_userUpdateStats (s : Store) (u : String) (dt : Nat) (dv : Int) :
    (userUpdateStats s u dt dv).markets = s.markets := rfl

@[simp] theorem markets_snapshotCreate (s : Store) (snap : Snapshot) :
    (snapshotCreate s snap).markets = s.markets := rfl

theorem statusOf_congr_markets {s1 s2 : Store} (h : s1.markets = s2.markets)
    (id : String) : statusOf s1 id = statusOf s2 id := by
  unfold statusOf
  rw [h]

theorem find?_status_map_update (id : String) (f : MarketRow → MarketRow)
    (hid : ∀ m, (f m).id = m.id)
    (hkeep : ∀ m, m.id = id → (f m).status = m.status) :
    ∀ (ms : List MarketRow),
    ((ms.map f).find? (fun m => m.id == id)).map MarketRow.status
      = (ms.find? (fun m => m.id == id)).map MarketRow.status := by
  intro ms
  induction ms with
  | nil => rfl
  | cons m ms ih =>
    by_cases hm : m.id = id
    · rw [List.map_cons, List.find?_cons_of_pos _ (by simp [hid, hm]),
        List.find?_cons_of_pos _ (by simp [hm])]
      simp [hkeep m hm]
    · rw [List.map_cons, List.find?_cons_of_neg _ (by simp [hid, hm]),
        List.find?_cons_of_neg _ (by simp [hm])]
      exact ih

theorem statusOf_marketUpdateStatus_cases (s : Store) (mid : String) (st2 : MStatus)
    (id : String) :
    statusOf (marketUpdateStatus s mid st2) id
      = if mid = id then (statusOf s id).map (fun _ => st2) else statusOf s id := by
  by_cases hmid : mid = id
  · subst hmid
    rw [if_pos rfl]
    exact statusOf_marketUpdateStatus_self s mid st2
  · rw [if_neg hmid]
    unfold statusOf marketUpdateStatus
    exact find?_status_map_update id _
      (fun m => by split <;> rfl)
      (fun m hm => by
        rw [if_neg]
        simp only [beq_iff_eq]
        exact fun hc => hmid ((hm ▸ hc : id = mid)).symm)
      s.markets

theorem statusOf_marketUpdateVolume (s : Store) (mid : String) (v l : Int)
    (id : String) : statusOf (marketUpdateVolume s mid v l) id = statusOf s id := by
  unfold statusOf marketUpdateVolume
  exact find?_status_map_update id _
    (fun m => by split <;> rfl)
    (fun m _ => by split <;> rfl)
    s.markets

theorem statusOf_marketUpsert_of_some (s : Store) (mid id : String) (x : MStatus)
    (h : statusOf s id = some x) : statusOf (marketUpsert s mid) id = some x := by
  unfold marketUpsert
  split
  · exact h
  · unfold statusOf at h ⊢
    simp only
    rcases hf : s.markets.find? (fun m => m.id == id) with _ | m
    · rw [hf] at h
      exact absurd h (by simp)
    · rw [hf] at h
      rw [find?_append_some _ _ hf]
      exact h

theorem statusOf_updateMarketSnapshot (reads : ChainReads) (s : Store)
    (mid id : String) :
    statusOf (updateMarketSnapshot reads s mid) id = statusOf s id := by
  unfold updateMarketSnapshot
  split
  · rw [statusOf_marketUpdateVolume]
    exact statusOf_congr_markets (markets_snapshotCreate s _) id
  · rfl

theorem statusOf_appendEvent (s : Store) (e : EventRecord) (id : String) :
    statusOf (appendEvent s e) id = statusOf s id :=
  statusOf_congr_markets (markets_appendEvent s e) id

theorem statusOf_userUpsert (s : Store) (u : String) (id : String) :
    statusOf (userUpsert s u) id = statusOf s id :=
  statusOf_congr_markets (markets_userUpsert s u) id

theorem statusOf_userUpdateStats (s : Store) (u : String) (dt : Nat) (dv : Int)
    (id : String) : statusOf (userUpdateStats s u dt dv) id = statusOf s id :=
  statusOf_congr_markets (markets_userUpdateStats s u dt dv) id

theorem statusOf_handleMarketEvent_of_resolved (reads : ChainReads) (st : IState)
    (en : String) (l : Log) (id : String)
    (h : statusOf st.store id = some MStatus.resolved) :
    statusOf (handleMarketEvent reads st en l).store id = some MStatus.resolved := by
  unfold handleMarketEvent
  dsimp only
  cases hu : userAddressOf l <;> rcases ht : isTradeKind en <;>
    rcases hm : en == "MarketResolved" <;>
      simp only [hu, ht, hm, Bool.false_eq_true, if_false, if_true] <;>
      simp only [statusOf_appendEvent, statusOf_userUpsert,
        statusOf_userUpdateStats, statusOf_updateMarketSnapshot,
        statusOf_marketUpdateStatus_cases] <;>
      first
        | exact h
        | (split <;> simp [h])

theorem statusOf_handleMarketCreated_of_resolved (st : IState) (l : Log)
    (id : String) (h : statusOf st.store id = some MStatus.resolved) :
    statusOf (handleMarketCreated st l).store id = some MStatus.resolved := by
  unfold handleMarketCreated
  dsimp only
  rw [statusOf_congr_markets (markets_appendEvent _ _) id]
  exact statusOf_marketUpsert_of_some st.store (marketIdOf l) id MStatus.resolved h

theorem resolveMarketIfReady_store_cases (env : ApiEnv) (nowMs : Nat) (now : Int)
    (rl : RL) (market : SchedMarket) (tx : Except String Receipt) (store : Store) :
    (resolveMarketIfReady env nowMs now rl market tx store).2.2 = store ∨
    (resolveMarketIfReady env nowMs now rl market tx store).2.2
      = marketUpdateStatus store market.id MStatus.resolved := by
  unfold resolveMarketIfReady
  split
  · exact Or.inl rfl
  split
  · exact Or.inl rfl
  split
  · exact Or.inl rfl
  split
  · exact Or.inl rfl
  split
  · exact Or.inl rfl
  · exact Or.inr rfl

theorem statusOf_sysStep_of_resolved (reads : ChainReads) (st : IState)
    (op : SysOp) (id : String)
    (h : statusOf st.store id = some MStatus.resolved) :
    statusOf (sysStep reads st op).store id = some MStatus.resolved := by
  cases op with
  | created l => exact statusOf_handleMarketCreated_of_resolved st l id h
  | marketEvent en l => exact statusOf_handleMarketEvent_of_resolved reads st en l id h
  | schedResolve env nowMs now rl row tx =>
    show statusOf (resolveMarketIfReady env nowMs now rl row tx st.store).2.2 id
      = some MStatus.resolved
    rcases resolveMarketIfReady_store_cases env nowMs now rl row tx st.store with
      hc | hc
    · rw [hc]
      exact h
    · rw [hc, statusOf_marketUpdateStatus_cases]
      split <;> simp [h]

/-! ## Trace lemmas for at-most-one resolution -/

theorem statusTrace_nil (reads : ChainReads) (st : IState) (id : String) :
    statusTrace reads [] st id = [statusOf st.store id] := rfl

theorem statusTrace_cons (reads : ChainReads) (op : SysOp) (ops : List SysOp)
    (st : IState) (id : String) :
    statusTrace reads (op :: ops) st id
      = statusOf st.store id :: statusTrace reads ops (sysStep reads st op) id := rfl

theorem statusTrace_head (reads : ChainReads) (ops : List SysOp) (st : IState)
    (id : String) : ∃ tl, statusTrace reads ops st id = statusOf st.store id :: tl := by
  cases ops with
  | nil => exact ⟨[], rfl⟩
  | cons op ops2 => exact ⟨_, statusTrace_cons reads op ops2 st id⟩

theorem trace_all_resolved (reads : ChainReads) (id : String) :
    ∀ (ops : List SysOp) (st : IState),
    statusOf st.store id = some MStatus.resolved →
    ∀ x ∈ statusTrace reads ops st id, x = some MStatus.resolved := by
  intro ops
  induction ops with
  | nil =>
    intro st h x hx
    rw [statusTrace_nil] at hx
    simpa [h] using hx
  | cons op ops2 ih =>
    intro st h x hx
    rw [statusTrace_cons] at hx
    rcases List.mem_cons.mp hx with rfl | hx2
    · exact h
    · exact ih (sysStep reads st op) (statusOf_sysStep_of_resolved reads st op id h) x hx2

theorem countAR_singleton (x : Option MStatus) : countAR [x] = 0 := by
  unfold countAR
  rcases x with _ | y
  · rfl
  · cases y <;> rfl

theorem countAR_cons_of_not (a b : Option MStatus) (tl : List (Option MStatus))
    (h : ¬(a = some MStatus.active ∧ b = some MStatus.resolved)) :
    countAR (a :: b :: tl) = countAR (b :: tl) := by
  rcases a with _ | a2
  · rfl
  rcases b with _ | b2
  · cases a2 <;> rfl
  cases a2 <;> cases b2 <;> first | rfl | exact absurd ⟨rfl, rfl⟩ h

theorem countAR_eq_zero_of_all_resolved :
    ∀ (tr : List (Option MStatus)),
    (∀ x ∈ tr, x = some MStatus.resolved) → countAR tr = 0 := by
  intro tr
  induction tr with
  | nil => intro _; rfl
  | cons x rest ih =>
    intro h
    rcases rest with _ | ⟨y, rest2⟩
    · exact countAR_singleton x
    · have hx : x = some MStatus.resolved := h x (by simp)
      rw [countAR_cons_of_not x y rest2 (by rw [hx]; rintro ⟨hc, _⟩; cases hc)]
      exact ih (fun z hz => h z (by simp [hz]))

theorem countAR_le_one (reads : ChainReads) (id : String) :
    ∀ (ops : List SysOp) (st : IState),
    countAR (statusTrace reads ops st id) ≤ 1 := by
  intro ops
  induction ops with
  | nil =>
    intro st
    rw [statusTrace_nil, countAR_singleton]
    omega
  | cons op ops2 ih =>
    intro st
    rw [statusTrace_cons]
    obtain ⟨tl, htl⟩ := statusTrace_head reads ops2 (sysStep reads st op) id
    rw [htl]
    by_cases hab : statusOf st.store id = some MStatus.active ∧
        statusOf (sysStep reads st op).store id = some MStatus.resolved
    · rw [hab.1, hab.2]
      show 1 + countAR (some MStatus.resolved :: tl) ≤ 1
      have h0 : countAR (some MStatus.resolved :: tl) = 0 := by
        rw [← hab.2, ← htl]
        exact countAR_eq_zero_of_all_resolved _
          (trace_all_resolved reads id ops2 (sysStep reads st op) hab.2)
      omega
    · rw [countAR_cons_of_not _ _ _ hab, ← htl]
      exact ih (sysStep reads st op)

/-! ## The MarketResolved confirmation is a full no-op once resolved -/

theorem mapStatus_eq_self (id : String) :
    ∀ (ms : List MarketRow), (ms.map MarketRow.id).Nodup →
    ((ms.find? (fun m => m.id == id)).map MarketRow.status = some MStatus.resolved) →
    ms.map (fun m => if m.id == id then { m with status := MStatus.resolved } else m)
      = ms := by
  intro ms
  induction ms with
  | nil => intro _ _; rfl
  | cons m ms2 ih =>
    intro hnd hf
    rw [List.map_cons] at hnd ⊢
    by_cases hm : m.id = id
    · rw [List.find?_cons_of_pos _ (by simp [hm])] at hf
      simp at hf
      have hmeq : (if m.id == id then { m with status := MStatus.resolved } else m) = m := by
        rw [if_pos (by simp [hm])]
        cases m
        simp_all
      rw [hmeq]
      have hrest : ∀ x ∈ ms2, ¬ (x.id = id) := by
        intro x hx hxid
        have : m.id ∈ ms2.map MarketRow.id := by
          rw [hm, ← hxid]
          exact List.mem_map_of_mem MarketRow.id hx
        exact (List.nodup_cons.mp hnd).1 this
      have : ms2.map (fun m2 => if m2.id == id then
          { m2 with status := MStatus.resolved } else m2) = ms2.map (fun m2 => m2) :=
        List.map_congr_left (fun x hx => by rw [if_neg (by simp [hrest x hx])])
      rw [this, List.map_id_fun']
      rfl
    · rw [List.find?_cons_of_neg _ (by simp [hm])] at hf
      rw [if_neg (by simp [hm])]
      rw [ih (List.nodup_cons.mp hnd).2 hf]

theorem marketUpdateStatus_self_of_resolved (s : Store) (id : String)
    (hnd : (s.markets.map MarketRow.id).Nodup)
    (h : statusOf s id = some MStatus.resolved) :
    marketUpdateStatus s id MStatus.resolved = s := by
  unfold marketUpdateStatus
  unfold statusOf at h
  have := mapStatus_eq_self id s.markets hnd h
  cases s
  simp_all

theorem handleMarketEvent_resolved_noop (reads : ChainReads) (st : IState) (l : Log)
    (hnd : (st.store.markets.map MarketRow.id).Nodup)
    (hst : statusOf st.store l.address = some MStatus.resolved)
    (hk : hasKey st.store (keyOf l) = true)
    (hu : userAddressOf l = none) :
    handleMarketEvent reads st "MarketResolved" l = st := by
  unfold handleMarketEvent
  dsimp only
  rw [hu]
  have habs1 : appendEvent st.store (genericRecordOf "MarketResolved" l) = st.store :=
    events_appendEvent_of_hasKey _ _ (by rw [recordKey_genericRecordOf]; exact hk)
  simp only [habs1, isTradeKind, beq_self_eq_true, if_true]
  rw [show (("MarketResolved" == "SharesPurchased")
      || ("MarketResolved" == "SharesSold")) = false from by decide]
  simp only [Bool.false_eq_true, if_false]
  rw [marketUpdateStatus_self_of_resolved st.store l.address hnd hst]
  rw [events_appendEvent_of_hasKey _ _ (by rw [recordKey_resolvedRecordOf]; exact hk)]

/-! ## Claim C2: at-most-one resolution, resolved is terminal -/

/-- Claim C2: along any interleaving of the two status writers (the
indexer handlers and the scheduler step, the latter fed arbitrary and
possibly stale queried rows), the stored status of an entity transitions
active→resolved at most once; once resolved it stays resolved under
every operation; and the indexer observing a MarketResolved event for an
entity already marked resolved (with the event key already stored, as
the confirmation path guarantees) is a complete no-op on the state, not
an error. -/
theorem C2_at_most_one_resolution :
    (∀ (reads : ChainReads) (ops : List SysOp) (st : IState) (id : String),
      countAR (statusTrace reads ops st id) ≤ 1) ∧
    (∀ (reads : ChainReads) (st : IState) (op : SysOp) (id : String),
      statusOf st.store id = some MStatus.resolved →
      statusOf (sysStep reads st op).store id = some MStatus.resolved) ∧
    (∀ (reads : ChainReads) (st : IState) (l : Log),
      (st.store.markets.map MarketRow.id).Nodup →
      statusOf st.store l.address = some MStatus.resolved →
      hasKey st.store (keyOf l) = true → userAddressOf l = none →
      handleMarketEvent reads st "MarketResolved" l = st) :=
  ⟨fun reads ops st id => countAR_le_one reads id ops st,
   fun reads st op id h => statusOf_sysStep_of_resolved reads st op id h,
   fun reads st l hnd hst hk hu =>
     handleMarketEvent_resolved_noop reads st l hnd hst hk hu⟩

/-- Witness for C2: a resolved entity with its confirmation event
already stored absorbs a replayed MarketResolved event without any state
change, and a concrete interleaving of both writers shows at most one
transition. -/
theorem C2_witness :
    countAR (statusTrace ⟨fun _ => [], fun _ => 0, fun _ => 0⟩
      [SysOp.marketEvent "MarketResolved"
        ⟨"M1", "MarketResolved", 9, "t1", 0, none, none, none, none, none,
          none, none, none, none, none, none, none, some 0⟩,
       SysOp.schedResolve ⟨10, fun _ => none, fun _ => Except.error "down"⟩ 0 0
        ⟨0, 0⟩ ⟨"M1", MStatus.active, 0, none⟩ (Except.ok ⟨"0xtx"⟩),
       SysOp.marketEvent "MarketResolved"
        ⟨"M1", "MarketResolved", 9, "t1", 0, none, none, none, none, none,
          none, none, none, none, none, none, none, some 0⟩]
      ⟨["M1"], ⟨[], [⟨"M1", MStatus.active, 0, 0⟩], [], []⟩⟩ "M1") ≤ 1 ∧
    handleMarketEvent ⟨fun _ => [], fun _ => 0, fun _ => 0⟩
      ⟨["M1"], ⟨[⟨"M1", "MarketResolved", none, some 0, none, none, 9, "t1", 0⟩],
        [⟨"M1", MStatus.resolved, 0, 0⟩], [], []⟩⟩ "MarketResolved"
      ⟨"M1", "MarketResolved", 9, "t1", 0, none, none, none, none, none,
        none, none, none, none, none, none, none, some 0⟩
      = ⟨["M1"], ⟨[⟨"M1", "MarketResolved", none, some 0, none, none, 9, "t1", 0⟩],
        [⟨"M1", MStatus.resolved, 0, 0⟩], [], []⟩⟩ :=
  ⟨C2_at_most_one_resolution.1 ⟨fun _ => [], fun _ => 0, fun _ => 0⟩ _ _ "M1",
   C2_at_most_one_resolution.2.2 ⟨fun _ => [], fun _ => 0, fun _ => 0⟩
     ⟨["M1"], ⟨[⟨"M1", "MarketResolved", none, some 0, none, none, 9, "t1", 0⟩],
       [⟨"M1", MStatus.resolved, 0, 0⟩], [], []⟩⟩
     ⟨"M1", "MarketResolved", 9, "t1", 0, none, none, none, none, none,
       none, none, none, none, none, none, none, some 0⟩
     (by decide) (by decide) (by decide) rfl⟩

/-! ## Coverage invariant for the backfill (claim C9) -/

theorem storedPred_ext (env : IndexEnv) {C1 C2 : Nat → Prop}
    (h : ∀ b, C1 b ↔ C2 b) (l : Log) :
    storedPred env C1 l ↔ storedPred env C2 l := by
  unfold storedPred
  constructor
  · rintro ⟨h1, h2, h3 | ⟨h4, c, hc, h5, h6, h7⟩⟩
    · exact ⟨h1, (h _).mp h2, Or.inl h3⟩
    · exact ⟨h1, (h _).mp h2, Or.inr ⟨h4, c, hc, h5, h6, (h _).mp h7⟩⟩
  · rintro ⟨h1, h2, h3 | ⟨h4, c, hc, h5, h6, h7⟩⟩
    · exact ⟨h1, (h _).mpr h2, Or.inl h3⟩
    · exact ⟨h1, (h _).mpr h2, Or.inr ⟨h4, c, hc, h5, h6, (h _).mpr h7⟩⟩

theorem Inv_ext (env : IndexEnv) {C1 C2 : Nat → Prop} (st : IState)
    (h : ∀ b, C1 b ↔ C2 b) (hI : Inv env C1 st) : Inv env C2 st := by
  obtain ⟨hw, hk⟩ := hI
  constructor
  · intro m
    rw [hw m]
    constructor
    · rintro ⟨c, hc, h1, h2, h3⟩
      exact ⟨c, hc, h1, h2, (h _).mp h3⟩
    · rintro ⟨c, hc, h1, h2, h3⟩
      exact ⟨c, hc, h1, h2, (h _).mpr h3⟩
  · intro k
    rw [hk k]
    constructor
    · rintro ⟨l, hsp, hkey⟩
      exact ⟨l, (storedPred_ext env h l).mp hsp, hkey⟩
    · rintro ⟨l, hsp, hkey⟩
      exact ⟨l, (storedPred_ext env h l).mpr hsp, hkey⟩

/-- Processing one batch [s, e] extends the coverage invariant from any
covered set bounded above by s to its union with the batch interval.
Well-formedness is needed only to rule out a per-market event inside the
already-covered blocks whose creation sits in the new batch. -/
theorem Inv_processBlockRange (env : IndexEnv) (C : Nat → Prop) (st : IState)
    (s e : Nat) (hwf : wfChain env.chain env.factory)
    (hub : ∀ b, C b → b ≤ s)
    (hI : Inv env C st) :
    Inv env (fun b => C b ∨ (s ≤ b ∧ b ≤ e)) (processBlockRange env st s e) := by
  obtain ⟨hw, hk⟩ := hI
  constructor
  · intro m
    rw [watch_processBlockRange_mem]
    constructor
    · rintro (hm | ⟨c, hc, hcr, hcm, h1, h2⟩)
      · obtain ⟨c, hc, hcr, hcm, hcb⟩ := (hw m).mp hm
        exact ⟨c, hc, hcr, hcm, Or.inl hcb⟩
      · exact ⟨c, hc, hcr, hcm, Or.inr ⟨h1, h2⟩⟩
    · rintro ⟨c, hc, hcr, hcm, hcb | ⟨h1, h2⟩⟩
      · exact Or.inl ((hw m).mpr ⟨c, hc, hcr, hcm, hcb⟩)
      · exact Or.inr ⟨c, hc, hcr, hcm, h1, h2⟩
  · intro k
    rw [hasKey_processBlockRange_iff]
    constructor
    · rintro (hkey | ⟨c, hc, hcr, h1, h2, hck⟩ | ⟨m, hm, l, hl, hla, hl4, h1, h2, hlk⟩)
      · obtain ⟨l, ⟨hl, hCb, hrest⟩, hlk⟩ := (hk k).mp hkey
        refine ⟨l, ⟨hl, Or.inl hCb, ?_⟩, hlk⟩
        rcases hrest with hcr | ⟨h4, c, hc, hccr, hcm, hcb⟩
        · exact Or.inl hcr
        · exact Or.inr ⟨h4, c, hc, hccr, hcm, Or.inl hcb⟩
      · exact ⟨c, ⟨hc, Or.inr ⟨h1, h2⟩, Or.inl hcr⟩, hck⟩
      · refine ⟨l, ⟨hl, Or.inr ⟨h1, h2⟩, Or.inr ⟨hl4, ?_⟩⟩, hlk⟩
        rcases hm with hmw | ⟨c, hc, hccr, hcm, hc1, hc2⟩
        · obtain ⟨c, hc, hccr, hcm, hcb⟩ := (hw m).mp hmw
          exact ⟨c, hc, hccr, hcm.trans hla.symm, Or.inl hcb⟩
        · exact ⟨c, hc, hccr, hcm.trans hla.symm, Or.inr ⟨hc1, hc2⟩⟩
    · rintro ⟨l, ⟨hl, hCb, hrest⟩, hlk⟩
      rcases hCb with hCl | ⟨h1, h2⟩
      · rcases hrest with hcr | ⟨h4, c, hc, hccr, hcm, hcb⟩
        · exact Or.inl ((hk k).mpr ⟨l, ⟨hl, hCl, Or.inl hcr⟩, hlk⟩)
        · by_cases hcC : C c.blockNumber
          · exact Or.inl ((hk k).mpr
              ⟨l, ⟨hl, hCl, Or.inr ⟨h4, c, hc, hccr, hcm, hcC⟩⟩, hlk⟩)
          · rcases hcb with hcC2 | ⟨hc1, hc2⟩
            · exact absurd hcC2 hcC
            · exfalso
              have hle : c.blockNumber ≤ l.blockNumber := hwf.1 l hl c hc h4 hccr hcm
              have hls : l.blockNumber ≤ s := hub _ hCl
              have hbeq : c.blockNumber = l.blockNumber := by omega
              exact hcC (hbeq ▸ hCl)
      · rcases hrest with hcr | ⟨h4, c, hc, hccr, hcm, hcb⟩
        · exact Or.inr (Or.inl ⟨l, hl, hcr, h1, h2, hlk⟩)
        · refine Or.inr (Or.inr ⟨l.address, ?_, l, hl, rfl, h4, h1, h2, hlk⟩)
          rcases hcb with hcC | ⟨hc1, hc2⟩
          · exact Or.inl ((hw l.address).mpr ⟨c, hc, hccr, hcm, hcC⟩)
          · exact Or.inr ⟨c, hc, hccr, hcm, hc1, hc2⟩

theorem Inv_backfillN (env : IndexEnv) (B : Nat) (hB : 0 < B)
    (hwf : wfChain env.chain env.factory) (t : Nat) :
    ∀ (n s : Nat) (st : IState) (C : Nat → Prop),
    t + 1 - s ≤ n →
    (∀ b, C b → b ≤ s) →
    Inv env C st →
    Inv env (fun b => C b ∨ (s ≤ b ∧ b ≤ t)) (backfillN env B n st s t) := by
  intro n
  induction n with
  | zero =>
    intro s st C hn hub hI
    simp only [backfillN]
    exact Inv_ext env st (fun b => by
      constructor
      · exact Or.inl
      · rintro (hb | ⟨h1, h2⟩)
        · exact hb
        · omega) hI
  | succ n ih =>
    intro s st C hn hub hI
    simp only [backfillN]
    split
    · rename_i h
      have hts : t < s := by
        rcases h with h0 | h
        · omega
        · exact h
      exact Inv_ext env st (fun b => by
        constructor
        · exact Or.inl
        · rintro (hb | ⟨h1, h2⟩)
          · exact hb
          · omega) hI
    · rename_i h
      push_neg at h
      obtain ⟨hB0, hst⟩ := h
      have hstep := Inv_processBlockRange env C st s (batchEnd B s t) hwf hub hI
      have hub2 : ∀ b, (C b ∨ (s ≤ b ∧ b ≤ batchEnd B s t)) → b ≤ s + B := by
        intro b hb
        rcases hb with hb | ⟨h1, h2⟩
        · have := hub b hb
          omega
        · unfold batchEnd at h2
          split at h2 <;> omega
      have hrec := ih (s + B) _ _ (by omega) hub2 hstep
      refine Inv_ext env _ (fun b => ?_) hrec
      constructor
      · rintro ((hc | hbe) | hrest)
        · exact Or.inl hc
        · refine Or.inr ?_
          unfold batchEnd at hbe
          split at hbe <;> omega
        · exact Or.inr (by omega)
      · rintro (hc | hbt)
        · exact Or.inl (Or.inl hc)
        · by_cases hbe : b ≤ batchEnd B s t
          · exact Or.inl (Or.inr ⟨hbt.1, hbe⟩)
          · refine Or.inr ?_
            unfold batchEnd at hbe
            split at hbe <;> omega

theorem Inv_init (env : IndexEnv) : Inv env (fun _ => False) initIState := by
  constructor
  · intro m
    simp [initIState]
  · intro k
    simp only [initIState, emptyStore]
    constructor
    · intro hk
      simp [hasKey] at hk
    · rintro ⟨l, ⟨_, hF, _⟩, _⟩
      exact hF.elim

/-! ## Key nodup preservation -/

theorem hasKey_iff_mem_keysList (s : Store) (k : String × Nat) :
    hasKey s k = true ↔ k ∈ keysList s := by
  simp [hasKey, keysList, List.any_eq_true, List.mem_map, recordKey, Prod.ext_iff]

theorem keysNodup_congr {s1 s2 : Store} (h : s1.events = s2.events) :
    keysNodup s1 ↔ keysNodup s2 := by
  unfold keysNodup keysList
  rw [h]

theorem keysNodup_appendEvent (s : Store) (e : EventRecord) (h : keysNodup s) :
    keysNodup (appendEvent s e) := by
  unfold appendEvent
  split
  · exact h
  · rename_i hno
    have hmem : recordKey e ∉ keysList s := by
      intro hmem
      exact hno ((hasKey_iff_mem_keysList s (recordKey e)).mpr hmem)
    show ((s.events ++ [e]).map recordKey).Nodup
    rw [List.map_append, List.nodup_append]
    refine ⟨h, List.nodup_singleton _, ?_⟩
    intro a ha hb
    simp only [List.map_cons, List.map_nil, List.mem_singleton] at hb
    subst hb
    exact hmem ha

theorem keysNodup_handleMarketEvent (reads : ChainReads) (st : IState)
    (en : String) (l : Log) (h : keysNodup st.store) :
    keysNodup (handleMarketEvent reads st en l).store := by
  rcases hk : hasKey st.store (keyOf l) with _ | _
  · have hev : (handleMarketEvent reads st en l).store.events
        = (appendEvent st.store (genericRecordOf en l)).events := by
      rw [events_handleMarketEvent_of_not_hasKey reads st en l hk]
      unfold appendEvent
      rw [if_neg (by simp [recordKey_genericRecordOf, hk])]
    exact (keysNodup_congr hev).mpr (keysNodup_appendEvent _ _ h)
  · exact (keysNodup_congr
      (events_handleMarketEvent_of_hasKey reads st en l hk)).mpr h

theorem keysNodup_handleMarketCreated (st : IState) (l : Log)
    (h : keysNodup st.store) : keysNodup (handleMarketCreated st l).store := by
  unfold handleMarketCreated
  dsimp only
  refine keysNodup_appendEvent _ _ ?_
  exact (keysNodup_congr (events_marketUpsert st.store (marketIdOf l))).mpr h

theorem keysNodup_foldlCreated : ∀ (logs : List Log) (st : IState),
    keysNodup st.store → keysNodup (logs.foldl handleMarketCreated st).store := by
  intro logs
  induction logs with
  | nil => intro st h; exact h
  | cons l ls ih =>
    intro st h
    rw [List.foldl_cons]
    exact ih _ (keysNodup_handleMarketCreated st l h)

theorem keysNodup_foldlEvents (reads : ChainReads) (en : String) :
    ∀ (logs : List Log) (st : IState), keysNodup st.store →
    keysNodup ((logs.foldl (fun s l2 => handleMarketEvent reads s en l2) st)).store := by
  intro logs
  induction logs with
  | nil => intro st h; exact h
  | cons l ls ih =>
    intro st h
    rw [List.foldl_cons]
    exact ih _ (keysNodup_handleMarketEvent reads st en l h)

theorem keysNodup_indexMarketEvents (env : IndexEnv) (st : IState) (m : String)
    (f t : Nat) (h : keysNodup st.store) :
    keysNodup (indexMarketEvents env st m f t).store := by
  unfold indexMarketEvents kinds4 indexEventType
  simp only [List.foldl_cons, List.foldl_nil]
  exact keysNodup_foldlEvents _ _ _ _ (keysNodup_foldlEvents _ _ _ _
    (keysNodup_foldlEvents _ _ _ _ (keysNodup_foldlEvents _ _ _ _ h)))

theorem keysNodup_foldlMarkets (env : IndexEnv) (f t : Nat) :
    ∀ (ws : List String) (st : IState), keysNodup st.store →
    keysNodup ((ws.foldl (fun s m => indexMarketEvents env s m f t) st)).store := by
  intro ws
  induction ws with
  | nil => intro st h; exact h
  | cons w ws2 ih =>
    intro st h
    rw [List.foldl_cons]
    exact ih _ (keysNodup_indexMarketEvents env st w f t h)

theorem keysNodup_processBlockRange (env : IndexEnv) (st : IState) (f t : Nat)
    (h : keysNodup st.store) : keysNodup (processBlockRange env st f t).store := by
  unfold processBlockRange indexMarketCreatedEvents
  exact keysNodup_foldlMarkets env f t _ _ (keysNodup_foldlCreated _ st h)

theorem keysNodup_backfillN (env : IndexEnv) (B : Nat) :
    ∀ (n s t : Nat) (st : IState), keysNodup st.store →
    keysNodup (backfillN env B n st s t).store := by
  intro n
  induction n with
  | zero => intro s t st h; exact h
  | succ n ih =>
    intro s t st h
    simp only [backfillN]
    split
    · exact h
    · exact ih _ _ _ (keysNodup_processBlockRange env st s (batchEnd B s t) h)

/-! ## Claim C9: batch boundary correctness -/

/-- Claim C9: for a well-formed chain, backfilling the interval
[lo, t] from the initial indexer state stores the same number of event
records for any two positive batch widths — in particular for a width
dividing the range and one that does not.  The overlap of consecutive
batches at the shared boundary block is absorbed by the event-key
uniqueness, and a market discovered mid-range has its events picked up
regardless of which batch its creation falls into. -/
theorem C9_batch_width_equivalence (env : IndexEnv) (B1 B2 lo t : Nat)
    (hwf : wfChain env.chain env.factory) (hB1 : 0 < B1) (hB2 : 0 < B2) :
    (backfillFrom env B1 initIState lo t).store.events.length
      = (backfillFrom env B2 initIState lo t).store.events.length := by
  unfold backfillFrom
  have h1 := Inv_backfillN env B1 hB1 hwf t (t + 1 - lo) lo initIState
    (fun _ => False) le_rfl (fun b hb => hb.elim) (Inv_init env)
  have h2 := Inv_backfillN env B2 hB2 hwf t (t + 1 - lo) lo initIState
    (fun _ => False) le_rfl (fun b hb => hb.elim) (Inv_init env)
  have hnd0 : keysNodup initIState.store := by
    simp [keysNodup, keysList, initIState, emptyStore]
  have hnd1 : keysNodup (backfillN env B1 (t + 1 - lo) initIState lo t).store :=
    keysNodup_backfillN env B1 _ _ _ _ hnd0
  have hnd2 : keysNodup (backfillN env B2 (t + 1 - lo) initIState lo t).store :=
    keysNodup_backfillN env B2 _ _ _ _ hnd0
  have hmem : ∀ k, k ∈ keysList (backfillN env B1 (t + 1 - lo) initIState lo t).store ↔
      k ∈ keysList (backfillN env B2 (t + 1 - lo) initIState lo t).store := by
    intro k
    rw [← hasKey_iff_mem_keysList, ← hasKey_iff_mem_keysList]
    rw [h1.2 k, h2.2 k]
  have hperm : List.Perm
      (keysList (backfillN env B1 (t + 1 - lo) initIState lo t).store)
      (keysList (backfillN env B2 (t + 1 - lo) initIState lo t).store) :=
    (List.perm_ext_iff_of_nodup hnd1 hnd2).mpr hmem
  calc (backfillN env B1 (t + 1 - lo) initIState lo t).store.events.length
      = (keysList (backfillN env B1 (t + 1 - lo) initIState lo t).store).length :=
        (List.length_map _ _).symm
    _ = (keysList (backfillN env B2 (t + 1 - lo) initIState lo t).store).length :=
        hperm.length_eq
    _ = (backfillN env B2 (t + 1 - lo) initIState lo t).store.events.length :=
        List.length_map _ _

/-- Witness for C9: a two-log chain (one creation at height 1, one trade
at height 3) backfilled over [0, 5] with widths 2 (not dividing the
span) and 3 stores the same two records. -/
theorem C9_witness :
    (backfillFrom ⟨[⟨"F", "MarketCreated", 1, "tc", 0, some "M1", none, none,
        none, none, none, none, none, none, none, none, none, none⟩,
      ⟨"M1", "SharesPurchased", 3, "ts", 0, none, none, none, none, some "0xA",
        none, none, none, some 0, some 1, some 5, none, none⟩], "F",
      ⟨fun _ => [], fun _ => 0, fun _ => 0⟩⟩ 2 initIState 0 5).store.events.length
      = (backfillFrom ⟨[⟨"F", "MarketCreated", 1, "tc", 0, some "M1", none, none,
          none, none, none, none, none, none, none, none, none, none⟩,
        ⟨"M1", "SharesPurchased", 3, "ts", 0, none, none, none, none, some "0xA",
          none, none, none, some 0, some 1, some 5, none, none⟩], "F",
        ⟨fun _ => [], fun _ => 0, fun _ => 0⟩⟩ 3 initIState 0 5).store.events.length
      ∧ (backfillFrom ⟨[⟨"F", "MarketCreated", 1, "tc", 0, some "M1", none, none,
          none, none, none, none, none, none, none, none, none, none⟩,
        ⟨"M1", "SharesPurchased", 3, "ts", 0, none, none, none, none, some "0xA",
          none, none, none, some 0, some 1, some 5, none, none⟩], "F",
        ⟨fun _ => [], fun _ => 0, fun _ => 0⟩⟩ 2 initIState 0 5).store.events.length
        = 2 :=
  ⟨C9_batch_width_equivalence ⟨[⟨"F", "MarketCreated", 1, "tc", 0, some "M1",
      none, none, none, none, none, none, none, none, none, none, none, none⟩,
    ⟨"M1", "SharesPurchased", 3, "ts", 0, none, none, none, none, some "0xA",
      none, none, none, some 0, some 1, some 5, none, none⟩], "F",
    ⟨fun _ => [], fun _ => 0, fun _ => 0⟩⟩ 2 3 0 5
    (by decide) (by decide) (by decide), by rfl⟩

end Backend
